import Mathlib

/-!
# Verification of the MadSpace phase-space mapping engine

Shallow embedding of the MadSpace sources (`madspace/helper.py`,
`madspace/twoparticle.py`, `madspace/rambo.py`,
`madspace/rootfinder/methods.py`) and proofs about them.

Real-valued tensor code is embedded over `ℝ` (exact real arithmetic, the
idealized semantics of the floating-point program); the batched root-finder
is embedded over `ℚ` so that runs on concrete inputs can be evaluated by
`decide`.  Python exceptions are modelled by `Except PyErr`.  Batched
tensors are modelled per batch element; where batch semantics matters
(the root-finder), a batch is a function `ℕ → ℚ` together with its size.
-/

namespace MadSpace

/-- Python exceptions raised by the embedded code.  Each constructor names
one concrete `raise` site (or runtime type error) in the sources. -/
inductive PyErr where
  /-- `ValueError` from `newton`/`bisect` line 24/74: no sign change on the bracket. -/
  | valueErrorNoRoot
  /-- `ValueError` from `newton` line 36: derivative too small. -/
  | valueErrorSmallDerivative
  /-- `ValueError` from `twoparticle.py` line 71/178: negative squared COM energy. -/
  | valueErrorNegativeS
  /-- `ValueError` from `rambo.py` line 64/195: COM energy not above the mass sum. -/
  | valueErrorEnergyTooSmall
  /-- `TypeError` from `torch.ones_like(None)` at `methods.py` line 27. -/
  | typeErrorOnesLikeNone
  /-- `TypeError` from subscripting a mapping object (`rambo.py` line 150/371). -/
  | typeErrorNotSubscriptable
  /-- `NotImplementedError` (`rambo.py` lines 107, 148, 369). -/
  | notImplementedError
  deriving DecidableEq, Repr

/-! ## Batched bracketed-Newton root-finder (`madspace/rootfinder/methods.py`)

A batch of scalars is a function `ℕ → ℚ` whose first `n` entries are
meaningful.  The batched callables `f`, `df` may close over per-element
data, hence they take the batch index as a first argument.  `torch.any`
over a boolean batch is `anyIdx`. -/

namespace RootFinder

/-- `torch.any` of an elementwise boolean predicate over a batch of size `n`. -/
def anyIdx (n : ℕ) (p : ℕ → Bool) : Bool := (List.range n).any p

/-- Iteration cap `ITER = 100` (`methods.py` line 9). -/
def ITER : ℕ := 100

/-- Absolute tolerance `XTOL = 2e-12` (`methods.py` line 10). -/
def XTOL : ℚ := 2 / 10 ^ 12

/-- Relative tolerance `RTOL = 4 * eps(float64)` (`methods.py` line 11). -/
def RTOL : ℚ := 4 / 2 ^ 52

/-- The raw Newton step `x1 = x0 - f(x0)/df(x0)` (`methods.py` line 39). -/
def newtonRawStep (f df : ℚ → ℚ) (x0 : ℚ) : ℚ := x0 - f x0 / df x0

/-- Bracket containment of the Newton step (`methods.py` lines 42-47): the
masks `higher = x1 > xb` and `lower = x1 < xa` are both computed from the
raw `x1`; an element with `higher` is replaced by `(xb + x0)/2`, then an
element with `lower` by `(xa + x0)/2`. -/
def clampToBracket (xa xb x0 x1 : ℚ) : ℚ :=
  let x1h := if xb < x1 then (xb + x0) / 2 else x1
  if x1 < xa then (xa + x0) / 2 else x1h

/-- `torch.allclose(x0, x1, atol=XTOL, rtol=RTOL)` (`methods.py` line 49). -/
def allclose (n : ℕ) (x0 x1 : ℕ → ℚ) : Bool :=
  decide (∀ i < n, |x0 i - x1 i| ≤ XTOL + RTOL * |x1 i|)

/-- The in-bracket Newton iterate of one loop pass (`methods.py` lines
39-47): raw step followed by bracket containment, per batch element. -/
def newtonX1 (f df : ℕ → ℚ → ℚ) (xa xb x0 : ℕ → ℚ) : ℕ → ℚ := fun i =>
  clampToBracket (xa i) (xb i) (x0 i) (newtonRawStep (f i) (df i) (x0 i))

/-- The bracket-narrowing mask `low = f(x1) * f(xa) > 0` (`methods.py`
line 54). -/
def newtonLow (f : ℕ → ℚ → ℚ) (xa x1 : ℕ → ℚ) : ℕ → Bool := fun i =>
  decide (0 < f i (x1 i) * f i (xa i))

/-- The iteration loop of `newton` (`methods.py` lines 34-61).  Each pass:
derivative guard `torch.any(df(x0) < epsilon)` (line 35, note: the signed
value, no absolute value), Newton step, bracket containment, convergence
check returning `x1`, bracket narrowing (`xa[low] = x1[low]`,
`xb[~low] = x1[~low]`), `x0 = x1`.  When the iteration budget is
exhausted the current iterate is returned (line 61). -/
def newtonLoop (f df : ℕ → ℚ → ℚ) (n : ℕ) (eps : ℚ) :
    ℕ → (ℕ → ℚ) → (ℕ → ℚ) → (ℕ → ℚ) → Except PyErr (ℕ → ℚ)
  | 0, _, _, x0 => .ok x0
  | iter + 1, xa, xb, x0 =>
    if anyIdx n (fun i => decide (df i (x0 i) < eps)) then
      .error .valueErrorSmallDerivative
    else if allclose n x0 (newtonX1 f df xa xb x0) then
      .ok (newtonX1 f df xa xb x0)
    else
      newtonLoop f df n eps iter
        (fun i => if newtonLow f xa (newtonX1 f df xa xb x0) i then
          newtonX1 f df xa xb x0 i else xa i)
        (fun i => if newtonLow f xa (newtonX1 f df xa xb x0) i then
          xb i else newtonX1 f df xa xb x0 i)
        (newtonX1 f df xa xb x0)

/-- `newton` (`methods.py` lines 14-61).  The bracket test
`torch.any(f(a) * f(b) > 0)` (line 23) runs first; then line 27 evaluates
`a * torch.ones_like(x0)`, which raises `TypeError` when `x0 is None` —
before the `if x0 is None` midpoint default on line 31 can run, so that
default is dead code and does not appear below. -/
def newton (f df : ℕ → ℚ → ℚ) (n : ℕ) (a b : ℚ) (x0 : Option (ℕ → ℚ))
    (maxIter : ℕ) (eps : ℚ) : Except PyErr (ℕ → ℚ) :=
  if anyIdx n (fun i => decide (0 < f i a * f i b)) then .error .valueErrorNoRoot
  else
    match x0 with
    | none => .error .typeErrorOnesLikeNone
    | some xs => newtonLoop f df n eps maxIter (fun _ => a) (fun _ => b) xs

/-- Concrete batched objective `f(x) = 1 - 1/x` for the bracket
`[1/2, 5]` (root at `x = 1`), with its exact derivative. -/
def fEscape : ℕ → ℚ → ℚ := fun _ x => 1 - 1 / x

/-- Exact derivative of `fEscape`, `f'(x) = 1/x²`. -/
def dfEscape : ℕ → ℚ → ℚ := fun _ x => 1 / x ^ 2

/-- Initial guess `x0 = 4` inside the bracket `[1/2, 5]`. -/
def x0Escape : ℕ → ℚ := fun _ => 4

/-- Constant-batch objective `f(x) = 1 - x` on `[0, 2]` (root at `1`). -/
def fNegDeriv : ℕ → ℚ → ℚ := fun _ x => 1 - x

/-- Exact derivative of `fNegDeriv`: the constant `-1`. -/
def dfNegDeriv : ℕ → ℚ → ℚ := fun _ _ => -1

/-- Initial guess `x0 = 1` for the negative-derivative run. -/
def x0NegDeriv : ℕ → ℚ := fun _ => 1

end RootFinder

/-! ## Kinematics kernel (`madspace/helper.py`)

A four-vector with components `(E, px, py, pz)`; real tensor arithmetic is
embedded in `ℝ`. -/

noncomputable section

open Real

/-- A four-vector `(E, px, py, pz)` (one batch element of a `(b,4)` tensor). -/
@[ext] structure Vec4 where
  e : ℝ
  x : ℝ
  y : ℝ
  z : ℝ

/-- `lsquare` (`helper.py` line 146): Minkowski self-contraction with
metric `diag(1,-1,-1,-1)`. -/
def lsquare (a : Vec4) : ℝ := a.e ^ 2 - a.x ^ 2 - a.y ^ 2 - a.z ^ 2

/-- `mass` (`helper.py` line 159): `sqrt(abs(lsquare(a)))`. -/
def massOf (a : Vec4) : ℝ := Real.sqrt |lsquare a|

/-- Euclidean dot product of the spatial parts, as used via
`edot(k[..., 1:], p[..., 1:])`. -/
def edot3 (a b : Vec4) : ℝ := a.x * b.x + a.y * b.y + a.z * b.z

/-- Euclidean square of the spatial part. -/
def esq3 (a : Vec4) : ℝ := a.x ^ 2 + a.y ^ 2 + a.z ^ 2

/-- Componentwise sum of two four-vectors. -/
def addV (a b : Vec4) : Vec4 := ⟨a.e + b.e, a.x + b.x, a.y + b.y, a.z + b.z⟩

/-- Scalar multiple of a four-vector. -/
def smulV (c : ℝ) (a : Vec4) : Vec4 := ⟨c * a.e, c * a.x, c * a.y, c * a.z⟩

/-- `tensor.sum(dim=1)` over the first `n` particles of a batch element. -/
def sumVec (n : ℕ) (f : ℕ → Vec4) : Vec4 :=
  ⟨∑ i ∈ Finset.range n, (f i).e, ∑ i ∈ Finset.range n, (f i).x,
   ∑ i ∈ Finset.range n, (f i).y, ∑ i ∈ Finset.range n, (f i).z⟩

/-- `kaellen` (`helper.py` line 43). -/
def kaellen (a b c : ℝ) : ℝ :=
  a ^ 2 + b ^ 2 + c ^ 2 - 2 * a * b - 2 * b * c - 2 * c * a

/-- `two_particle_density` (`helper.py` line 11):
`8 s / sqrt(kaellen(s, m1^2, m2^2))`. -/
def two_particle_density (s m1 m2 : ℝ) : ℝ :=
  8 * s / Real.sqrt (kaellen s (m1 ^ 2) (m2 ^ 2))

/-- `rotate_zy` (`helper.py` lines 59-111): rotation `R_z(phi) . R_y(theta)`
with `sintheta = sqrt(1 - costheta^2)`, acting on the spatial part. -/
def rotate_zy (p : Vec4) (phi costheta : ℝ) : Vec4 :=
  let sintheta := Real.sqrt (1 - costheta ^ 2)
  ⟨p.e,
   p.x * costheta * Real.cos phi + p.z * sintheta * Real.cos phi
     - p.y * Real.sin phi,
   p.x * costheta * Real.sin phi + p.z * sintheta * Real.sin phi
     + p.y * Real.cos phi,
   p.z * costheta - p.x * sintheta⟩

/-- The body of `boost` (`helper.py` lines 229-241) with the `sign` local
(`-1.0 if inverse else 1.0`) as an explicit parameter:
`k0' = (E·E_f + sign·k⃗·p⃗_f)/rsq`, `c1 = (E + k0')/(rsq + E_f)`,
spatial components shifted by `sign·c1·p⃗_f`. -/
def boostS (k p_boost : Vec4) (sign : ℝ) : Vec4 :=
  let rsq := Real.sqrt (lsquare p_boost)
  let k0 := (k.e * p_boost.e + sign * edot3 k p_boost) / rsq
  let c1 := (k.e + k0) / (rsq + p_boost.e)
  ⟨k0, k.x + sign * c1 * p_boost.x, k.y + sign * c1 * p_boost.y,
   k.z + sign * c1 * p_boost.z⟩

/-- `boost` (`helper.py` lines 212-241): boost `k` into (or, for
`inverse = true`, out of) the rest frame of `p_boost`, in the
numerically stable form used by the source. -/
def boost (k p_boost : Vec4) (inverse : Bool) : Vec4 :=
  boostS k p_boost (if inverse then -1 else 1)

/-- `torch.atan2 y x`: the angle of the point `(x, y)` in `(-π, π]`,
realised as the complex argument of `x + y i`. -/
def atan2 (y x : ℝ) : ℝ := Complex.arg ⟨x, y⟩

/-- `map_fourvector_rambo` (`helper.py` lines 269-286) applied to row `i`
of the `(n,4)` random block: an isotropic direction from the first two
randoms and energy `-log(r_2 r_3)`. -/
def map_fourvector_rambo (r : ℕ → Fin 4 → ℝ) (i : ℕ) : Vec4 :=
  let costheta := 2 * r i 0 - 1
  let phi := 2 * π * r i 1
  let q0 := -Real.log (r i 2 * r i 3)
  ⟨q0, q0 * Real.sqrt (1 - costheta ^ 2) * Real.cos phi,
   q0 * Real.sqrt (1 - costheta ^ 2) * Real.sin phi, q0 * costheta⟩

end

/-! ## Isotropic two-particle COM mapping (`madspace/twoparticle.py`) -/

noncomputable section

open Real

namespace TwoParticleCOM

/-- `TwoParticleCOM.map` (`twoparticle.py` lines 54-93) on one batch
element: random pair `(r1, r2)` and squared COM energy `s` to the decay
pair and the density `1/gs` with `gs = two_particle_density / (4π)`.
Raises `ValueError` when `s < 0` (line 70). -/
def map (m1 m2 : ℝ) (r1 r2 s : ℝ) : Except PyErr ((Vec4 × Vec4) × ℝ) :=
  if s < 0 then .error .valueErrorNegativeS
  else
    let phi := 2 * π * r1
    let costheta := 2 * r2 - 1
    let e1 := (s + m1 ^ 2 - m2 ^ 2) / (2 * Real.sqrt s)
    let e2 := (s + m2 ^ 2 - m1 ^ 2) / (2 * Real.sqrt s)
    let pmag := Real.sqrt (kaellen s (m1 ^ 2) (m2 ^ 2)) / (2 * Real.sqrt s)
    let p1 := rotate_zy ⟨e1, 0, 0, pmag⟩ phi costheta
    let p2 : Vec4 := ⟨e2, -p1.x, -p1.y, -p1.z⟩
    let gs := two_particle_density s m1 m2 / (4 * π)
    .ok ((p1, p2), 1 / gs)

/-- `TwoParticleCOM.map_inverse` (`twoparticle.py` lines 95-129): recover
`((r1, r2), s)` and the density `gs` from the decay pair.  `r1` is
`atan2(p1_y, p1_x) / 2 / π`, with no wrap-around of negative angles. -/
def map_inverse (m1 m2 : ℝ) (p1 p2 : Vec4) : ((ℝ × ℝ) × ℝ) × ℝ :=
  let p0 := addV p1 p2
  let s := lsquare p0
  let p1mag := Real.sqrt (edot3 p1 p1)
  let costheta := p1.z / p1mag
  let phi := atan2 p1.y p1.x
  let r1 := phi / 2 / π
  let r2 := (costheta + 1) / 2
  let gs := two_particle_density s m1 m2 / (4 * π)
  (((r1, r2), s), gs)

end TwoParticleCOM

/-! ## Rambo global sampler (`madspace/rambo.py`) -/

/-- Construction-time configuration of `Rambo` (`rambo.py` lines 34-51):
particle count and optional mass list. -/
structure RamboCfg where
  nparticles : ℕ
  masses : Option (ℕ → ℝ)

namespace Rambo

/-- `self.e_min` (`rambo.py` lines 44/47): the mass sum, or `0` when
massless. -/
noncomputable def e_min (cfg : RamboCfg) : ℝ :=
  match cfg.masses with
  | some m => ∑ i ∈ Finset.range cfg.nparticles, m i
  | none => 0

/-- `Rambo._massles_weight` (`rambo.py` lines 109-115): the closed-form
flat massless phase-space volume. -/
noncomputable def masslessWeight (n : ℕ) (e_cm : ℝ) : ℝ :=
  (π / 2) ^ (n - 1) * e_cm ^ (2 * (n : ℤ) - 4)
    / (Real.Gamma n * Real.Gamma ((n : ℝ) - 1))

/-- `Rambo._massive_weight` (`rambo.py` lines 117-143): the correction
factor for the massive rescaling. -/
noncomputable def massiveWeight (n : ℕ) (k p : ℕ → Vec4) (xi : ℝ) : ℝ :=
  xi ^ (3 * (n : ℤ) - 3) * (∏ i ∈ Finset.range n, (p i).e / (k i).e)
    * (∑ i ∈ Finset.range n, esq3 (p i) / (p i).e)
    / ∑ i ∈ Finset.range n, esq3 (k i) / (k i).e

/-- The massless momenta of `Rambo.map` (`rambo.py` lines 69-80): the
intermediate isotropic vectors are summed, boosted into the rest frame of
their sum and rescaled by `x = e_cm / M`. -/
noncomputable def masslessP (n : ℕ) (e_cm : ℝ) (r : ℕ → Fin 4 → ℝ)
    (i : ℕ) : Vec4 :=
  let q : ℕ → Vec4 := fun j => map_fourvector_rambo r j
  let bigQ : Vec4 := sumVec n q
  let bigM : ℝ := Real.sqrt (lsquare bigQ)
  smulV (e_cm / bigM) (boost (q i) bigQ true)

/-- The massive momenta built from the massless ones (`rambo.py` lines
93-96): `k₀ = sqrt(m² + xi²·p₀²)`, spatial parts rescaled by `xi`. -/
noncomputable def massiveK (m : ℕ → ℝ) (xi : ℝ) (p : ℕ → Vec4) :
    ℕ → Vec4 := fun i =>
  ⟨Real.sqrt ((m i) ^ 2 + xi ^ 2 * (p i).e ^ 2),
   xi * (p i).x, xi * (p i).y, xi * (p i).z⟩

/-- `Rambo.map` (`rambo.py` lines 53-103) on one batch element.  Raises
`ValueError` when `e_cm ≤ e_min` (line 63).  The scalar `xi` stands for
the value returned by `get_xi_parameter`.

Modelled from the spec: `get_xi_parameter` lives in
`rootfinder/roots.py`, which is not part of the sources; per the spec it
solves `Σᵢ sqrt(mᵢ² + xi²·pᵢ₀²) = e_cm` with the bracketed Newton solver,
so it is taken here as a parameter constrained by that equation in the
theorems below. -/
noncomputable def map (cfg : RamboCfg) (xi : ℝ) (r : ℕ → Fin 4 → ℝ)
    (e_cm : ℝ) : Except PyErr ((ℕ → Vec4) × ℝ) :=
  if e_cm ≤ e_min cfg then .error .valueErrorEnergyTooSmall
  else
    let p : ℕ → Vec4 := masslessP cfg.nparticles e_cm r
    let w0 : ℝ := masslessWeight cfg.nparticles e_cm
    match cfg.masses with
    | none => .ok (p, w0)
    | some m =>
      .ok (massiveK m xi p, massiveWeight cfg.nparticles (massiveK m xi p) p xi * w0)

/-- `Rambo.map_inverse` (`rambo.py` lines 105-107): unconditionally
`raise NotImplementedError`. -/
def map_inverse (cfg : RamboCfg) (inputs : ℕ → Vec4) :
    Except PyErr ((ℕ → Fin 4 → ℝ) × ℝ) :=
  .error .notImplementedError

/-- `Rambo.density` (`rambo.py` lines 145-151).  With `inverse=True` it
raises `NotImplementedError` (line 148).  Otherwise line 150 executes
`self.map(self, inputs)`: the mapping object itself is passed as the
`inputs` argument of `map` (and the actual inputs as `condition`), so
`map` immediately evaluates `inputs[0]` on the non-subscriptable mapping
object and raises `TypeError` — no density is ever computed.  (The base
class `PhaseSpaceMapping` is not part of the sources; per the spec a
mapping object is configuration plus methods, not a sequence, so the
subscript fails.) -/
def density (cfg : RamboCfg) (r : ℕ → Fin 4 → ℝ) (e_cm : ℝ)
    (inverse : Bool) : Except PyErr ℝ :=
  if inverse then .error .notImplementedError
  else .error .typeErrorNotSubscriptable

end Rambo

namespace RamboOnDiet

/-- `RamboOnDiet.density` (`rambo.py` lines 366-372): identical to
`Rambo.density`, including the `self.map(self, inputs)` call on line 371
that subscripts the mapping object and raises `TypeError`. -/
def density (cfg : RamboCfg) (r : ℕ → ℝ) (e_cm : ℝ)
    (inverse : Bool) : Except PyErr ℝ :=
  if inverse then .error .notImplementedError
  else .error .typeErrorNotSubscriptable

end RamboOnDiet

/-- Concrete random block for a two-particle Rambo run: two back-to-back
beam-axis directions (`costheta = ±1`), all energy randoms `1/2`. -/
noncomputable def rTwo : ℕ → Fin 4 → ℝ := fun i j =>
  match j with
  | 0 => if i = 0 then 1 else 0
  | 1 => 0
  | 2 => 1/2
  | 3 => 1/2

/-- Concrete random block for a three-particle Rambo run: rows give the
directions `+z`, `-z` and `+x`, all energy randoms `1/2`. -/
noncomputable def rThree : ℕ → Fin 4 → ℝ := fun i j =>
  match j with
  | 0 => if i = 0 then 1 else if i = 1 then 0 else 1/2
  | 1 => 0
  | 2 => 1/2
  | 3 => 1/2

/-- The degenerate random block with every entry `1/2`: all particles are
drawn in exactly the same direction, so the intermediate sum is lightlike
and the global rescale divides by zero. -/
noncomputable def rDeg : ℕ → Fin 4 → ℝ := fun _ _ => 1/2

end

/-! ## Root-finder theorems -/

namespace RootFinder

/-- `anyIdx` detects exactly the indices below the batch size. -/
lemma anyIdx_iff (n : ℕ) (p : ℕ → Bool) :
    anyIdx n p = true ↔ ∃ i < n, p i = true := by
  simp [anyIdx, List.any_eq_true, List.mem_range]

/-- `anyIdx` over a singleton batch is the predicate at index `0`. -/
lemma anyIdx_one (p : ℕ → Bool) : anyIdx 1 p = p 0 := by
  simp [anyIdx, List.range_succ]

/-- A boolean known to be `false` is not `true`. -/
lemma ne_true_of_eq_false {b : Bool} (h : b = false) : ¬ b = true := by
  simp [h]

/-- One loop pass aborts when the derivative guard fires. -/
lemma newtonLoop_abort (f df : ℕ → ℚ → ℚ) (n : ℕ) (eps : ℚ) (iter : ℕ)
    (xa xb x0 : ℕ → ℚ)
    (hd : anyIdx n (fun i => decide (df i (x0 i) < eps)) = true) :
    newtonLoop f df n eps (iter + 1) xa xb x0
      = .error .valueErrorSmallDerivative := by
  rw [newtonLoop, if_pos hd]

/-- A single loop pass whose derivative guard passes always returns a
value (with one iteration left there is no further guard to fail). -/
lemma newtonLoop_one_ok (f df : ℕ → ℚ → ℚ) (n : ℕ) (eps : ℚ)
    (xa xb x0 : ℕ → ℚ)
    (hd : anyIdx n (fun i => decide (df i (x0 i) < eps)) = false) :
    ∃ g, newtonLoop f df n eps 1 xa xb x0 = .ok g := by
  rw [newtonLoop, if_neg (ne_true_of_eq_false hd)]
  by_cases hc : allclose n x0 (newtonX1 f df xa xb x0) = true
  · exact ⟨_, if_pos hc⟩
  · rw [if_neg hc]
    exact ⟨_, rfl⟩

/-- C7 counterexample: with `f(x) = 1 - 1/x`, `f'(x) = 1/x²`, bracket
`[1/2, 5]` and iterate `x0 = 4`, the Newton step `x1 = -8` escapes below
the bracket, yet one iteration of `newton` returns `(xa + x0)/2 = 9/4`,
not the bracket midpoint `(xa + xb)/2 = 11/4`. -/
theorem newton_escape_not_bracket_midpoint :
    newton fEscape dfEscape 1 (1/2) 5 (some x0Escape) 1 (1/100000000)
      = .ok (fun _ => 9/4) ∧
    newtonRawStep (fEscape 0) (dfEscape 0) (x0Escape 0) < 1/2 ∧
    (9/4 : ℚ) ≠ (1/2 + 5) / 2 := by
  have hstep : ∀ i : ℕ,
      newtonRawStep (fEscape i) (dfEscape i) (x0Escape i) = -8 := by
    intro i; norm_num [newtonRawStep, fEscape, dfEscape, x0Escape]
  have hx1 : newtonX1 fEscape dfEscape (fun _ => 1/2) (fun _ => 5) x0Escape
      = fun _ : ℕ => (9/4 : ℚ) := by
    funext i
    show clampToBracket (1/2) 5 (x0Escape i)
      (newtonRawStep (fEscape i) (dfEscape i) (x0Escape i)) = 9/4
    rw [hstep i]
    norm_num [clampToBracket, x0Escape]
  refine ⟨?_, by rw [hstep 0]; norm_num, by norm_num⟩
  have hbr : anyIdx 1 (fun i => decide (0 < fEscape i (1/2) * fEscape i 5))
      = false := by
    rw [anyIdx_one, decide_eq_false_iff_not]
    show ¬ 0 < fEscape 0 (1/2) * fEscape 0 5
    norm_num [fEscape]
  have hd : anyIdx 1
      (fun i => decide (dfEscape i (x0Escape i) < 1/100000000)) = false := by
    rw [anyIdx_one, decide_eq_false_iff_not]
    show ¬ dfEscape 0 (x0Escape 0) < 1/100000000
    norm_num [dfEscape, x0Escape]
  have hac : allclose 1 x0Escape (fun _ => (9/4 : ℚ)) = false := by
    rw [allclose, decide_eq_false_iff_not]
    intro hall
    have h0 := hall 0 (by norm_num)
    rw [show x0Escape 0 = 4 from rfl,
      show |(4 : ℚ) - 9/4| = 7/4 by rw [abs_of_nonneg] <;> norm_num,
      show |(9/4 : ℚ)| = 9/4 from abs_of_nonneg (by norm_num)] at h0
    norm_num [XTOL, RTOL] at h0
  have hrun : newtonLoop fEscape dfEscape 1 (1/100000000) (0 + 1)
      (fun _ => 1/2) (fun _ => 5) x0Escape = .ok (fun _ => 9/4) := by
    rw [newtonLoop, if_neg (ne_true_of_eq_false hd), hx1,
      if_neg (ne_true_of_eq_false hac), newtonLoop]
  simp only [newton, hbr, Bool.false_eq_true, if_false]
  exact hrun

/-- C7 (amended): an escaping Newton step is replaced by the midpoint of
the current iterate and the violated bracket edge: `(xb + x0)/2` above,
`(xa + x0)/2` below. -/
theorem newton_escape_replacement (f df : ℚ → ℚ) (xa xb x0 : ℚ)
    (hab : xa ≤ xb) :
    (xb < newtonRawStep f df x0 →
      clampToBracket xa xb x0 (newtonRawStep f df x0) = (xb + x0) / 2) ∧
    (newtonRawStep f df x0 < xa →
      clampToBracket xa xb x0 (newtonRawStep f df x0) = (xa + x0) / 2) := by
  constructor
  · intro h
    have hna : ¬ newtonRawStep f df x0 < xa := by linarith
    simp only [clampToBracket]
    rw [if_neg hna, if_pos h]
  · intro h
    simp only [clampToBracket]
    rw [if_pos h]

/-- C7 witness: the amended replacement rule evaluated on the concrete
escaping configuration (`x1 = -8 < 1/2`, replacement `(1/2 + 4)/2`). -/
theorem newton_escape_replacement_witness :
    (1/2 : ℚ) ≤ 5 ∧
    newtonRawStep (fEscape 0) (dfEscape 0) 4 < 1/2 ∧
    clampToBracket (1/2) 5 4 (newtonRawStep (fEscape 0) (dfEscape 0) 4)
      = (1/2 + 4) / 2 :=
  ⟨by norm_num,
   by norm_num [newtonRawStep, fEscape, dfEscape],
   (newton_escape_replacement (fEscape 0) (dfEscape 0) (1/2) 5 4
      (by norm_num)).2
     (by norm_num [newtonRawStep, fEscape, dfEscape])⟩

/-- C8 counterexample: for `f(x) = 1 - x` with exact derivative `-1`
(magnitude `1`, far above `epsilon = 1e-8`), `newton` still aborts with
the small-derivative error, because line 35 tests the signed value
`df(x0) < epsilon` rather than its magnitude. -/
theorem newton_deriv_abort_despite_large_magnitude :
    newton fNegDeriv dfNegDeriv 1 0 2 (some x0NegDeriv) 100 (1/100000000)
      = .error .valueErrorSmallDerivative ∧
    (1/100000000 : ℚ) ≤ |dfNegDeriv 0 (x0NegDeriv 0)| := by
  constructor
  · have hbr : anyIdx 1
        (fun i => decide (0 < fNegDeriv i 0 * fNegDeriv i 2)) = false := by
      rw [anyIdx_one, decide_eq_false_iff_not]
      show ¬ 0 < fNegDeriv 0 0 * fNegDeriv 0 2
      norm_num [fNegDeriv]
    have hd : anyIdx 1
        (fun i => decide (dfNegDeriv i (x0NegDeriv i) < 1/100000000))
        = true := by
      rw [anyIdx_one, decide_eq_true_eq]
      show dfNegDeriv 0 (x0NegDeriv 0) < 1/100000000
      norm_num [dfNegDeriv, x0NegDeriv]
    simp only [newton, hbr, Bool.false_eq_true, if_false]
    exact newtonLoop_abort fNegDeriv dfNegDeriv 1 (1/100000000) 99
      _ _ _ hd
  · norm_num [dfNegDeriv, x0NegDeriv]

/-- C8 (amended): provided the bracket test passes, a one-iteration run of
`newton` aborts with the small-derivative error exactly when some batch
element has signed derivative `df(x0) < epsilon` — so large negative
derivatives abort too, and no absolute value is taken. -/
theorem newton_deriv_abort_iff (f df : ℕ → ℚ → ℚ) (n : ℕ) (a b : ℚ)
    (x0 : ℕ → ℚ) (eps : ℚ) (hbr : ∀ i < n, f i a * f i b ≤ 0) :
    (newton f df n a b (some x0) 1 eps = .error .valueErrorSmallDerivative
      ↔ ∃ i < n, df i (x0 i) < eps) := by
  have hb : anyIdx n (fun i => decide (0 < f i a * f i b)) = false := by
    rw [Bool.eq_false_iff, Ne, anyIdx_iff]
    rintro ⟨i, hi, hp⟩
    exact absurd (of_decide_eq_true hp) (not_lt.mpr (hbr i hi))
  simp only [newton, hb, Bool.false_eq_true, if_false]
  by_cases hd : anyIdx n (fun i => decide (df i (x0 i) < eps)) = true
  · rw [show newtonLoop f df n eps 1 (fun _ => a) (fun _ => b) x0
        = Except.error PyErr.valueErrorSmallDerivative from
      newtonLoop_abort f df n eps 0 _ _ _ hd]
    simp only [true_iff]
    obtain ⟨i, hi, hp⟩ := (anyIdx_iff _ _).mp hd
    exact ⟨i, hi, of_decide_eq_true hp⟩
  · obtain ⟨g, hg⟩ := newtonLoop_one_ok f df n eps (fun _ => a) (fun _ => b)
      x0 (Bool.eq_false_iff.mpr hd)
    rw [hg]
    constructor
    · intro h; exact absurd h (by simp)
    · rintro ⟨i, hi, hlt⟩
      exact absurd ((anyIdx_iff _ _).mpr ⟨i, hi, decide_eq_true hlt⟩) hd

/-- C8 witness: for `f(x) = x` on `[-1, 1]` with derivative `1` and
`x0 = 0`, the bracket hypothesis holds and the abort criterion is
settled by the amended equivalence. -/
theorem newton_deriv_abort_iff_witness :
    (∀ i < 1, (fun (_ : ℕ) (x : ℚ) => x) i (-1) * (fun (_ : ℕ) (x : ℚ) => x) i 1 ≤ 0) ∧
    (newton (fun _ x => x) (fun _ _ => 1) 1 (-1) 1 (some fun _ => 0) 1
        (1/100000000) = .error .valueErrorSmallDerivative
      ↔ ∃ i < 1, (fun (_ : ℕ) (_ : ℚ) => (1 : ℚ)) i ((fun _ => (0 : ℚ)) i)
          < 1/100000000) :=
  ⟨fun _ _ => by norm_num,
   newton_deriv_abort_iff (fun _ x => x) (fun _ _ => 1) 1 (-1) 1
     (fun _ => 0) (1/100000000) (fun _ _ => by norm_num)⟩

/-- C10: calling `newton` with `x0 = None` always fails before any Newton
iteration runs — either the bracket test raises `ValueError`, or
`torch.ones_like(None)` on line 27 raises `TypeError`; the documented
midpoint default for `x0` on line 31 is unreachable. -/
theorem newton_x0_none_always_errors (f df : ℕ → ℚ → ℚ) (n : ℕ)
    (a b : ℚ) (maxIter : ℕ) (eps : ℚ) :
    newton f df n a b none maxIter eps = .error .valueErrorNoRoot ∨
    newton f df n a b none maxIter eps = .error .typeErrorOnesLikeNone := by
  unfold newton
  by_cases h : anyIdx n (fun i => decide (0 < f i a * f i b)) = true
  · left; rw [if_pos h]
  · right; rw [if_neg h]

end RootFinder

/-- C5: `Rambo.map_inverse` fails with `NotImplementedError` on every
input and every configuration; it never returns a value. -/
theorem rambo_map_inverse_unsupported (cfg : RamboCfg) (inputs : ℕ → Vec4) :
    Rambo.map_inverse cfg inputs = .error .notImplementedError := rfl

/-! ## Kinematics kernel lemmas -/

section KernelLemmas

open Real

/-- The spatial Euclidean square of a four-vector against its Minkowski
square. -/
lemma esq3_eq (p : Vec4) : esq3 p = p.e ^ 2 - lsquare p := by
  simp only [esq3, lsquare]; ring

/-- `boostS` preserves the Minkowski square whenever the boosting vector
is timelike (`sign` is `±1`). -/
lemma boostS_lsquare (k p : Vec4) (s : ℝ) (hs : s ^ 2 = 1)
    (hp : 0 ≤ lsquare p) (hM0 : Real.sqrt (lsquare p) ≠ 0)
    (hMe : Real.sqrt (lsquare p) + p.e ≠ 0) :
    lsquare (boostS k p s) = lsquare k := by
  set M := Real.sqrt (lsquare p) with hMdef
  have hM2 : M ^ 2 = lsquare p := Real.sq_sqrt hp
  have hB : p.x ^ 2 + p.y ^ 2 + p.z ^ 2 = p.e ^ 2 - M ^ 2 := by
    have hl : M ^ 2 = p.e ^ 2 - p.x ^ 2 - p.y ^ 2 - p.z ^ 2 := hM2
    linarith
  set A := edot3 k p with hA
  set k0 := (k.e * p.e + s * A) / M with hk0def
  set c := (k.e + k0) / (M + p.e) with hcdef
  have hin : boostS k p s
      = ⟨k0, k.x + s * c * p.x, k.y + s * c * p.y, k.z + s * c * p.z⟩ := rfl
  rw [hin]
  have h1 : k0 * M = k.e * p.e + s * A := by
    rw [hk0def]; exact div_mul_cancel₀ _ hM0
  have h2 : c * (M + p.e) = k.e + k0 := by
    rw [hcdef]; exact div_mul_cancel₀ _ hMe
  have hsA : s * A = k0 * M - k.e * p.e := by linarith
  have hky : 2 * s * c * A + c ^ 2 * (p.e ^ 2 - M ^ 2)
      = k0 ^ 2 - k.e ^ 2 := by
    have e1 : (2 * s * c * A + c ^ 2 * (p.e ^ 2 - M ^ 2)) * (M + p.e) ^ 2
        = 2 * (s * A) * (c * (M + p.e)) * (M + p.e)
          + (c * (M + p.e)) ^ 2 * (p.e ^ 2 - M ^ 2) := by ring
    have e2 : 2 * (s * A) * (c * (M + p.e)) * (M + p.e)
          + (c * (M + p.e)) ^ 2 * (p.e ^ 2 - M ^ 2)
        = (k0 ^ 2 - k.e ^ 2) * (M + p.e) ^ 2 := by
      rw [hsA, h2]; ring
    exact mul_right_cancel₀ (pow_ne_zero 2 hMe) (e1.trans e2)
  show k0 ^ 2 - (k.x + s * c * p.x) ^ 2 - (k.y + s * c * p.y) ^ 2
      - (k.z + s * c * p.z) ^ 2 = lsquare k
  have hexp : (k.x + s * c * p.x) ^ 2 + (k.y + s * c * p.y) ^ 2
        + (k.z + s * c * p.z) ^ 2
      = (k.x ^ 2 + k.y ^ 2 + k.z ^ 2) + 2 * s * c * A
        + s ^ 2 * (c ^ 2 * (p.x ^ 2 + p.y ^ 2 + p.z ^ 2)) := by
    rw [hA]; simp only [edot3]; ring
  have hlk : lsquare k = k.e ^ 2 - k.x ^ 2 - k.y ^ 2 - k.z ^ 2 := rfl
  rw [hlk]
  have hfin : (k.x + s * c * p.x) ^ 2 + (k.y + s * c * p.y) ^ 2
      + (k.z + s * c * p.z) ^ 2
      = (k.x ^ 2 + k.y ^ 2 + k.z ^ 2) + (k0 ^ 2 - k.e ^ 2) := by
    rw [hexp, hs, one_mul, hB]
    linarith
  linarith

/-- A `boostS` with sign `s` is undone by a `boostS` with sign `-s`
(`s = ±1`, timelike boosting vector). -/
lemma boostS_inv (k p : Vec4) (s : ℝ) (hs : s ^ 2 = 1)
    (hp : 0 ≤ lsquare p) (hM0 : Real.sqrt (lsquare p) ≠ 0)
    (hMe : Real.sqrt (lsquare p) + p.e ≠ 0) :
    boostS (boostS k p s) p (-s) = k := by
  set M := Real.sqrt (lsquare p) with hMdef
  have hM2 : M ^ 2 = lsquare p := Real.sq_sqrt hp
  have hB : p.x ^ 2 + p.y ^ 2 + p.z ^ 2 = p.e ^ 2 - M ^ 2 := by
    have hl : M ^ 2 = p.e ^ 2 - p.x ^ 2 - p.y ^ 2 - p.z ^ 2 := hM2
    linarith
  set A := edot3 k p with hA
  set k0 := (k.e * p.e + s * A) / M with hk0def
  set c := (k.e + k0) / (M + p.e) with hcdef
  have hin : boostS k p s
      = ⟨k0, k.x + s * c * p.x, k.y + s * c * p.y, k.z + s * c * p.z⟩ := rfl
  rw [hin]
  have h1 : k0 * M = k.e * p.e + s * A := by
    rw [hk0def]; exact div_mul_cancel₀ _ hM0
  have h2 : c * (M + p.e) = k.e + k0 := by
    rw [hcdef]; exact div_mul_cancel₀ _ hMe
  have hsA : s * A = k0 * M - k.e * p.e := by linarith
  have hA1 : edot3 ⟨k0, k.x + s * c * p.x, k.y + s * c * p.y,
        k.z + s * c * p.z⟩ p
      = A + s * c * (p.x ^ 2 + p.y ^ 2 + p.z ^ 2) := by
    rw [hA]; simp only [edot3]; ring
  have houter : boostS (⟨k0, k.x + s * c * p.x, k.y + s * c * p.y,
        k.z + s * c * p.z⟩ : Vec4) p (-s)
      = ⟨(k0 * p.e + (-s) * edot3 ⟨k0, k.x + s * c * p.x,
            k.y + s * c * p.y, k.z + s * c * p.z⟩ p) / M,
         k.x + s * c * p.x + (-s) * ((k0 + (k0 * p.e
            + (-s) * edot3 ⟨k0, k.x + s * c * p.x, k.y + s * c * p.y,
              k.z + s * c * p.z⟩ p) / M) / (M + p.e)) * p.x,
         k.y + s * c * p.y + (-s) * ((k0 + (k0 * p.e
            + (-s) * edot3 ⟨k0, k.x + s * c * p.x, k.y + s * c * p.y,
              k.z + s * c * p.z⟩ p) / M) / (M + p.e)) * p.y,
         k.z + s * c * p.z + (-s) * ((k0 + (k0 * p.e
            + (-s) * edot3 ⟨k0, k.x + s * c * p.x, k.y + s * c * p.y,
              k.z + s * c * p.z⟩ p) / M) / (M + p.e)) * p.z⟩ := rfl
  rw [houter, hA1]
  have hk00 : (k0 * p.e + (-s) * (A + s * c
      * (p.x ^ 2 + p.y ^ 2 + p.z ^ 2))) / M = k.e := by
    rw [div_eq_iff hM0]
    linear_combination (-1 : ℝ) * hsA
      + (-(c * (p.x ^ 2 + p.y ^ 2 + p.z ^ 2))) * hs + (-c) * hB
      + (M - p.e) * h2
  have hcc : (k0 + (k0 * p.e + (-s) * (A + s * c
      * (p.x ^ 2 + p.y ^ 2 + p.z ^ 2))) / M) / (M + p.e) = c := by
    rw [hk00, hcdef, add_comm]
  apply Vec4.ext
  · exact hk00
  · rw [hcc]; ring
  · rw [hcc]; ring
  · rw [hcc]; ring

/-- C9: in exact arithmetic the boost primitive is an involution pair —
for timelike `p_boost` with positive energy, the inverse boost undoes the
forward boost and vice versa, and both directions preserve the Minkowski
square. -/
theorem boost_invertible_preserves_lsquare (k p : Vec4)
    (hp : 0 < lsquare p) (hpe : 0 < p.e) :
    boost (boost k p false) p true = k ∧
    boost (boost k p true) p false = k ∧
    lsquare (boost k p false) = lsquare k ∧
    lsquare (boost k p true) = lsquare k := by
  have hp' : 0 ≤ lsquare p := hp.le
  have hM0 : Real.sqrt (lsquare p) ≠ 0 := ne_of_gt (Real.sqrt_pos.mpr hp)
  have hMe : Real.sqrt (lsquare p) + p.e ≠ 0 :=
    ne_of_gt (add_pos_of_nonneg_of_pos (Real.sqrt_nonneg _) hpe)
  refine ⟨?_, ?_, ?_, ?_⟩
  · have h := boostS_inv k p 1 (by norm_num) hp' hM0 hMe
    show boostS (boostS k p 1) p (-1) = k
    simpa using h
  · have h := boostS_inv k p (-1) (by norm_num) hp' hM0 hMe
    show boostS (boostS k p (-1)) p 1 = k
    rw [neg_neg] at h
    exact h
  · exact boostS_lsquare k p 1 (by norm_num) hp' hM0 hMe
  · exact boostS_lsquare k p (-1) (by norm_num) hp' hM0 hMe

/-- C9 witness: the boost round trip and invariance at
`k = (1, 2, 0, 0)`, `p = (5, 3, 0, 0)` (so `lsquare p = 16 > 0`). -/
theorem boost_invertible_preserves_lsquare_witness :
    0 < lsquare (⟨5, 3, 0, 0⟩ : Vec4) ∧ 0 < (⟨5, 3, 0, 0⟩ : Vec4).e ∧
    (boost (boost ⟨1, 2, 0, 0⟩ ⟨5, 3, 0, 0⟩ false) ⟨5, 3, 0, 0⟩ true
        = (⟨1, 2, 0, 0⟩ : Vec4) ∧
     boost (boost ⟨1, 2, 0, 0⟩ ⟨5, 3, 0, 0⟩ true) ⟨5, 3, 0, 0⟩ false
        = (⟨1, 2, 0, 0⟩ : Vec4) ∧
     lsquare (boost ⟨1, 2, 0, 0⟩ ⟨5, 3, 0, 0⟩ false)
        = lsquare (⟨1, 2, 0, 0⟩ : Vec4) ∧
     lsquare (boost ⟨1, 2, 0, 0⟩ ⟨5, 3, 0, 0⟩ true)
        = lsquare (⟨1, 2, 0, 0⟩ : Vec4)) :=
  ⟨by norm_num [lsquare], by norm_num,
   boost_invertible_preserves_lsquare ⟨1, 2, 0, 0⟩ ⟨5, 3, 0, 0⟩
     (by norm_num [lsquare]) (by norm_num)⟩

end KernelLemmas

/-! ## Two-particle COM mapping theorems -/

section TwoParticleLemmas

open Real

/-- `rotate_zy` on a z-axis-aligned vector yields the spherical-coordinate
vector of the doc comment of `helper.py` lines 77-82. -/
lemma rotate_zy_axis (E pm phi c : ℝ) :
    rotate_zy ⟨E, 0, 0, pm⟩ phi c
      = ⟨E, pm * Real.sqrt (1 - c ^ 2) * Real.cos phi,
         pm * Real.sqrt (1 - c ^ 2) * Real.sin phi, pm * c⟩ := by
  simp only [rotate_zy]
  apply Vec4.ext <;> dsimp <;> ring

/-- C4: two massless particles, `s = 100²`, random pair `(0.3, 0.7)`:
`map` yields two vectors of energy exactly `50`, both with vanishing
Minkowski square, spatial parts exact negatives of each other, each of
Euclidean magnitude `50`. -/
theorem twoparticle_com_scenario1 :
    ∃ p1 p2 d, TwoParticleCOM.map 0 0 (3/10) (7/10) 10000
        = .ok ((p1, p2), d) ∧
      p1.e = 50 ∧ p2.e = 50 ∧ lsquare p1 = 0 ∧ lsquare p2 = 0 ∧
      p2.x = -p1.x ∧ p2.y = -p1.y ∧ p2.z = -p1.z ∧
      Real.sqrt (esq3 p1) = 50 ∧ Real.sqrt (esq3 p2) = 50 := by
  have hsqrt : Real.sqrt 10000 = 100 := by
    rw [show (10000 : ℝ) = 100 ^ 2 by norm_num,
      Real.sqrt_sq (by norm_num : (0:ℝ) ≤ 100)]
  have he1 : (10000 + (0:ℝ) ^ 2 - 0 ^ 2) / (2 * Real.sqrt 10000) = 50 := by
    rw [hsqrt]; norm_num
  have hkael : Real.sqrt (kaellen 10000 ((0:ℝ) ^ 2) (0 ^ 2))
      / (2 * Real.sqrt 10000) = 50 := by
    rw [show kaellen 10000 ((0:ℝ) ^ 2) (0 ^ 2) = 10000 ^ 2 by
        norm_num [kaellen],
      Real.sqrt_sq (by norm_num : (0:ℝ) ≤ 10000), hsqrt]
    norm_num
  have hs21 : Real.sqrt (1 - (2 * (7/10 : ℝ) - 1) ^ 2)
      = Real.sqrt (21/25) := by norm_num
  have hp1 : rotate_zy ⟨(10000 + (0:ℝ) ^ 2 - 0 ^ 2) / (2 * Real.sqrt 10000),
        0, 0, Real.sqrt (kaellen 10000 ((0:ℝ) ^ 2) (0 ^ 2))
          / (2 * Real.sqrt 10000)⟩ (2 * π * (3/10)) (2 * (7/10) - 1)
      = ⟨50, 50 * Real.sqrt (21/25) * Real.cos (2 * π * (3/10)),
          50 * Real.sqrt (21/25) * Real.sin (2 * π * (3/10)), 20⟩ := by
    rw [he1, hkael, rotate_zy_axis, hs21]
    norm_num
  have hsθ2 : Real.sqrt (21/25 : ℝ) ^ 2 = 21/25 :=
    Real.sq_sqrt (by norm_num)
  have hcs := Real.sin_sq_add_cos_sq (2 * π * (3/10))
  refine ⟨⟨50, 50 * Real.sqrt (21/25) * Real.cos (2 * π * (3/10)),
      50 * Real.sqrt (21/25) * Real.sin (2 * π * (3/10)), 20⟩,
    ⟨50, -(50 * Real.sqrt (21/25) * Real.cos (2 * π * (3/10))),
      -(50 * Real.sqrt (21/25) * Real.sin (2 * π * (3/10))), -20⟩,
    1 / (two_particle_density 10000 0 0 / (4 * π)), ?_, rfl, rfl,
    ?_, ?_, rfl, rfl, rfl, ?_, ?_⟩
  · simp only [TwoParticleCOM.map]
    rw [if_neg (by norm_num : ¬ ((10000:ℝ) < 0))]
    rw [hp1, he1]
  · show (50:ℝ) ^ 2 - (50 * Real.sqrt (21/25) * Real.cos (2 * π * (3/10))) ^ 2
      - (50 * Real.sqrt (21/25) * Real.sin (2 * π * (3/10))) ^ 2
      - 20 ^ 2 = 0
    linear_combination (-2500 * (Real.cos (2 * π * (3/10)) ^ 2
      + Real.sin (2 * π * (3/10)) ^ 2)) * hsθ2 + (-2100 : ℝ) * hcs
  · show (50:ℝ) ^ 2
      - (-(50 * Real.sqrt (21/25) * Real.cos (2 * π * (3/10)))) ^ 2
      - (-(50 * Real.sqrt (21/25) * Real.sin (2 * π * (3/10)))) ^ 2
      - (-20) ^ 2 = 0
    linear_combination (-2500 * (Real.cos (2 * π * (3/10)) ^ 2
      + Real.sin (2 * π * (3/10)) ^ 2)) * hsθ2 + (-2100 : ℝ) * hcs
  · have hesq : esq3 ⟨50, 50 * Real.sqrt (21/25) * Real.cos (2 * π * (3/10)),
        50 * Real.sqrt (21/25) * Real.sin (2 * π * (3/10)), 20⟩ = 2500 := by
      show (50 * Real.sqrt (21/25) * Real.cos (2 * π * (3/10))) ^ 2
        + (50 * Real.sqrt (21/25) * Real.sin (2 * π * (3/10))) ^ 2
        + (20:ℝ) ^ 2 = 2500
      linear_combination (2500 * (Real.cos (2 * π * (3/10)) ^ 2
        + Real.sin (2 * π * (3/10)) ^ 2)) * hsθ2 + (2100 : ℝ) * hcs
    rw [hesq, show (2500:ℝ) = 50 ^ 2 by norm_num,
      Real.sqrt_sq (by norm_num : (0:ℝ) ≤ 50)]
  · have hesq : esq3 ⟨50,
        -(50 * Real.sqrt (21/25) * Real.cos (2 * π * (3/10))),
        -(50 * Real.sqrt (21/25) * Real.sin (2 * π * (3/10))), -20⟩
        = 2500 := by
      show (-(50 * Real.sqrt (21/25) * Real.cos (2 * π * (3/10)))) ^ 2
        + (-(50 * Real.sqrt (21/25) * Real.sin (2 * π * (3/10)))) ^ 2
        + (-20:ℝ) ^ 2 = 2500
      linear_combination (2500 * (Real.cos (2 * π * (3/10)) ^ 2
        + Real.sin (2 * π * (3/10)) ^ 2)) * hsθ2 + (2100 : ℝ) * hcs
    rw [hesq, show (2500:ℝ) = 50 ^ 2 by norm_num,
      Real.sqrt_sq (by norm_num : (0:ℝ) ≤ 50)]

/-- `atan2` recovers the angle of a positively scaled direction vector, for
angles in the principal range `(-π, π]`. -/
lemma atan2_mul_cos_sin (d φ : ℝ) (hd : 0 < d) (h1 : -π < φ) (h2 : φ ≤ π) :
    atan2 (d * Real.sin φ) (d * Real.cos φ) = φ := by
  have hmk : (⟨d * Real.cos φ, d * Real.sin φ⟩ : ℂ)
      = (d : ℂ) * (Complex.cos φ + Complex.sin φ * Complex.I) := by
    apply Complex.ext
    · simp [Complex.mul_re, Complex.add_re, Complex.mul_im, Complex.add_im,
        Complex.cos_ofReal_re, Complex.sin_ofReal_re, Complex.cos_ofReal_im,
        Complex.sin_ofReal_im]
    · simp [Complex.mul_re, Complex.add_re, Complex.mul_im, Complex.add_im,
        Complex.cos_ofReal_re, Complex.sin_ofReal_re, Complex.cos_ofReal_im,
        Complex.sin_ofReal_im]
  show Complex.arg ⟨d * Real.cos φ, d * Real.sin φ⟩ = φ
  rw [hmk, Complex.arg_real_mul _ hd,
    Complex.arg_cos_add_sin_mul_I (Set.mem_Ioc.mpr ⟨h1, h2⟩)]

/-- Evaluation of `TwoParticleCOM.map_inverse` on a back-to-back spherical
pair: it returns the azimuth over `2π`, `(costheta + 1)/2`, the invariant
mass square of the pair sum, and the density `gs`. -/
lemma map_inverse_spherical (m1 m2 E1 E2 pm sθ c φ s : ℝ)
    (hpm : 0 < pm) (hsθ : 0 < sθ) (hsθ2 : sθ ^ 2 = 1 - c ^ 2)
    (hφ1 : -π < φ) (hφ2 : φ ≤ π)
    (hE : E1 + E2 = Real.sqrt s) (hs0 : 0 ≤ s) :
    TwoParticleCOM.map_inverse m1 m2
        ⟨E1, pm * sθ * Real.cos φ, pm * sθ * Real.sin φ, pm * c⟩
        ⟨E2, -(pm * sθ * Real.cos φ), -(pm * sθ * Real.sin φ), -(pm * c)⟩
      = (((φ / 2 / π, (c + 1) / 2), s),
         two_particle_density s m1 m2 / (4 * π)) := by
  have hcs := Real.sin_sq_add_cos_sq φ
  have haddV : addV ⟨E1, pm * sθ * Real.cos φ, pm * sθ * Real.sin φ, pm * c⟩
      ⟨E2, -(pm * sθ * Real.cos φ), -(pm * sθ * Real.sin φ), -(pm * c)⟩
      = ⟨Real.sqrt s, 0, 0, 0⟩ := by
    simp only [addV]
    apply Vec4.ext <;> dsimp
    · exact hE
    · ring
    · ring
    · ring
  have hls : lsquare (⟨Real.sqrt s, 0, 0, 0⟩ : Vec4) = s := by
    show Real.sqrt s ^ 2 - 0 ^ 2 - 0 ^ 2 - 0 ^ 2 = s
    rw [Real.sq_sqrt hs0]; ring
  have hedot : edot3 ⟨E1, pm * sθ * Real.cos φ, pm * sθ * Real.sin φ, pm * c⟩
      ⟨E1, pm * sθ * Real.cos φ, pm * sθ * Real.sin φ, pm * c⟩ = pm ^ 2 := by
    show pm * sθ * Real.cos φ * (pm * sθ * Real.cos φ)
      + pm * sθ * Real.sin φ * (pm * sθ * Real.sin φ)
      + pm * c * (pm * c) = pm ^ 2
    linear_combination (pm ^ 2 * (Real.cos φ ^ 2 + Real.sin φ ^ 2)) * hsθ2
      + (pm ^ 2 * (1 - c ^ 2)) * hcs
  simp only [TwoParticleCOM.map_inverse]
  rw [haddV, hls, hedot, Real.sqrt_sq hpm.le,
    mul_div_cancel_left₀ _ hpm.ne',
    atan2_mul_cos_sin (pm * sθ) φ (mul_pos hpm hsθ) hφ1 hφ2]

/-- C1 (amended): for `r1 ∈ [0, 1/2]`, `r2 ∈ (0, 1)`, `s > 0` and strictly
positive Kaellen, `map` followed by `map_inverse` recovers `(r1, r2)` and
`s` exactly, and the forward and inverse densities multiply to `1`; for
`r1 ∈ (1/2, 1)` the azimuth random number is instead returned shifted by
`-1` (see the counterexample). -/
theorem twoparticle_com_roundtrip (m1 m2 r1 r2 s : ℝ)
    (hr1l : 0 ≤ r1) (hr1r : r1 ≤ 1/2) (hr2l : 0 < r2) (hr2r : r2 < 1)
    (hs : 0 < s) (hk : 0 < kaellen s (m1 ^ 2) (m2 ^ 2)) :
    ∃ p1 p2 d,
      TwoParticleCOM.map m1 m2 r1 r2 s = .ok ((p1, p2), d) ∧
      TwoParticleCOM.map_inverse m1 m2 p1 p2
        = (((r1, r2), s), two_particle_density s m1 m2 / (4 * π)) ∧
      d * (two_particle_density s m1 m2 / (4 * π)) = 1 := by
  have hss : 0 < Real.sqrt s := Real.sqrt_pos.mpr hs
  have hsk : 0 < Real.sqrt (kaellen s (m1 ^ 2) (m2 ^ 2)) :=
    Real.sqrt_pos.mpr hk
  have hpm : 0 < Real.sqrt (kaellen s (m1 ^ 2) (m2 ^ 2))
      / (2 * Real.sqrt s) := div_pos hsk (by linarith)
  have h1c : 0 < 1 - (2 * r2 - 1) ^ 2 := by nlinarith
  have hsθ : 0 < Real.sqrt (1 - (2 * r2 - 1) ^ 2) := Real.sqrt_pos.mpr h1c
  have hsθ2 : Real.sqrt (1 - (2 * r2 - 1) ^ 2) ^ 2 = 1 - (2 * r2 - 1) ^ 2 :=
    Real.sq_sqrt h1c.le
  have hφ1 : -π < 2 * π * r1 := by nlinarith [Real.pi_pos]
  have hφ2 : 2 * π * r1 ≤ π := by nlinarith [Real.pi_pos]
  have hEsum : (s + m1 ^ 2 - m2 ^ 2) / (2 * Real.sqrt s)
      + (s + m2 ^ 2 - m1 ^ 2) / (2 * Real.sqrt s) = Real.sqrt s := by
    rw [div_add_div_same,
      show s + m1 ^ 2 - m2 ^ 2 + (s + m2 ^ 2 - m1 ^ 2) = 2 * s by ring,
      mul_div_mul_left _ _ (two_ne_zero), Real.div_sqrt]
  have hgs : 0 < two_particle_density s m1 m2 / (4 * π) := by
    have h8 : 0 < 8 * s := by linarith
    exact div_pos (div_pos h8 hsk) (by positivity)
  have hmap : TwoParticleCOM.map m1 m2 r1 r2 s
      = .ok (((⟨(s + m1 ^ 2 - m2 ^ 2) / (2 * Real.sqrt s),
          Real.sqrt (kaellen s (m1 ^ 2) (m2 ^ 2)) / (2 * Real.sqrt s)
            * Real.sqrt (1 - (2 * r2 - 1) ^ 2) * Real.cos (2 * π * r1),
          Real.sqrt (kaellen s (m1 ^ 2) (m2 ^ 2)) / (2 * Real.sqrt s)
            * Real.sqrt (1 - (2 * r2 - 1) ^ 2) * Real.sin (2 * π * r1),
          Real.sqrt (kaellen s (m1 ^ 2) (m2 ^ 2)) / (2 * Real.sqrt s)
            * (2 * r2 - 1)⟩ : Vec4),
        (⟨(s + m2 ^ 2 - m1 ^ 2) / (2 * Real.sqrt s),
          -(Real.sqrt (kaellen s (m1 ^ 2) (m2 ^ 2)) / (2 * Real.sqrt s)
            * Real.sqrt (1 - (2 * r2 - 1) ^ 2) * Real.cos (2 * π * r1)),
          -(Real.sqrt (kaellen s (m1 ^ 2) (m2 ^ 2)) / (2 * Real.sqrt s)
            * Real.sqrt (1 - (2 * r2 - 1) ^ 2) * Real.sin (2 * π * r1)),
          -(Real.sqrt (kaellen s (m1 ^ 2) (m2 ^ 2)) / (2 * Real.sqrt s)
            * (2 * r2 - 1))⟩ : Vec4)),
        1 / (two_particle_density s m1 m2 / (4 * π))) := by
    simp only [TwoParticleCOM.map]
    rw [if_neg (not_lt.mpr hs.le), rotate_zy_axis]
  have hin := map_inverse_spherical m1 m2
    ((s + m1 ^ 2 - m2 ^ 2) / (2 * Real.sqrt s))
    ((s + m2 ^ 2 - m1 ^ 2) / (2 * Real.sqrt s))
    (Real.sqrt (kaellen s (m1 ^ 2) (m2 ^ 2)) / (2 * Real.sqrt s))
    (Real.sqrt (1 - (2 * r2 - 1) ^ 2)) (2 * r2 - 1) (2 * π * r1) s
    hpm hsθ hsθ2 hφ1 hφ2 hEsum hs.le
  have hphi : 2 * π * r1 / 2 / π = r1 := by
    field_simp
  have hr2c : (2 * r2 - 1 + 1) / 2 = r2 := by ring
  rw [hphi, hr2c] at hin
  exact ⟨_, _, _, hmap, hin, one_div_mul_cancel hgs.ne'⟩

/-- C1 witness: the amended round trip at `m1 = m2 = 0`, `s = 4`,
`r = (1/4, 1/2)`. -/
theorem twoparticle_com_roundtrip_witness :
    ((0 : ℝ) ≤ 1/4 ∧ (1/4 : ℝ) ≤ 1/2 ∧ (0 : ℝ) < 1/2 ∧ (1/2 : ℝ) < 1 ∧
     (0 : ℝ) < 4 ∧ 0 < kaellen 4 ((0:ℝ) ^ 2) ((0:ℝ) ^ 2)) ∧
    (∃ p1 p2 d,
      TwoParticleCOM.map 0 0 (1/4) (1/2) 4 = .ok ((p1, p2), d) ∧
      TwoParticleCOM.map_inverse 0 0 p1 p2
        = (((1/4, 1/2), 4), two_particle_density 4 0 0 / (4 * π)) ∧
      d * (two_particle_density 4 0 0 / (4 * π)) = 1) :=
  ⟨⟨by norm_num, by norm_num, by norm_num, by norm_num, by norm_num,
     by norm_num [kaellen]⟩,
   twoparticle_com_roundtrip 0 0 (1/4) (1/2) 4 (by norm_num) (by norm_num)
     (by norm_num) (by norm_num) (by norm_num) (by norm_num [kaellen])⟩

/-- C1 counterexample: at `m1 = m2 = 0`, `s = 4`, `r = (3/4, 1/2)` the
round trip returns the azimuth random number `-1/4` instead of `3/4` —
off by `1`, far beyond the `1e-5` relative tolerance — because
`map_inverse` divides `atan2`'s principal value by `2π` without wrapping
negative angles. -/
theorem twoparticle_com_roundtrip_counterexample :
    ∃ p1 p2 d,
      TwoParticleCOM.map 0 0 (3/4) (1/2) 4 = .ok ((p1, p2), d) ∧
      (TwoParticleCOM.map_inverse 0 0 p1 p2).1.1.1 = -(1/4) ∧
      1/100000 * (3/4 : ℝ)
        < |(TwoParticleCOM.map_inverse 0 0 p1 p2).1.1.1 - 3/4| := by
  have hsqrt4 : Real.sqrt 4 = 2 := by
    rw [show (4 : ℝ) = 2 ^ 2 by norm_num,
      Real.sqrt_sq (by norm_num : (0:ℝ) ≤ 2)]
  have hE1 : (4 + (0:ℝ) ^ 2 - 0 ^ 2) / (2 * Real.sqrt 4) = 1 := by
    rw [hsqrt4]; norm_num
  have hpm : Real.sqrt (kaellen 4 ((0:ℝ) ^ 2) (0 ^ 2))
      / (2 * Real.sqrt 4) = 1 := by
    rw [show kaellen 4 ((0:ℝ) ^ 2) (0 ^ 2) = 4 ^ 2 by norm_num [kaellen],
      Real.sqrt_sq (by norm_num : (0:ℝ) ≤ 4), hsqrt4]
    norm_num
  have hsθ : Real.sqrt (1 - (2 * (1/2 : ℝ) - 1) ^ 2) = 1 := by
    rw [show (1 - (2 * (1/2 : ℝ) - 1) ^ 2) = 1 by norm_num, Real.sqrt_one]
  have hcos : Real.cos (2 * π * (3/4)) = 0 := by
    rw [show 2 * π * (3/4 : ℝ) = π + π/2 by ring, Real.cos_add]
    rw [Real.cos_pi, Real.sin_pi, Real.cos_pi_div_two, Real.sin_pi_div_two]
    ring
  have hsin : Real.sin (2 * π * (3/4)) = -1 := by
    rw [show 2 * π * (3/4 : ℝ) = π + π/2 by ring, Real.sin_add]
    rw [Real.cos_pi, Real.sin_pi, Real.cos_pi_div_two, Real.sin_pi_div_two]
    ring
  have hmap : TwoParticleCOM.map 0 0 (3/4) (1/2) 4
      = .ok (((⟨1, 0, -1, 0⟩ : Vec4), (⟨1, 0, 1, 0⟩ : Vec4)),
        1 / (two_particle_density 4 0 0 / (4 * π))) := by
    simp only [TwoParticleCOM.map]
    rw [if_neg (by norm_num : ¬ ((4:ℝ) < 0)), rotate_zy_axis, hE1, hpm,
      hsθ, hcos, hsin]
    simp only [Except.ok.injEq, Prod.mk.injEq, Vec4.mk.injEq]
    norm_num
  have hat : atan2 (-1) 0 = -(π/2) := by
    have h := atan2_mul_cos_sin 1 (-(π/2)) one_pos
      (by linarith [Real.pi_pos]) (by linarith [Real.pi_pos])
    rw [Real.cos_neg, Real.sin_neg, Real.cos_pi_div_two,
      Real.sin_pi_div_two] at h
    norm_num at h
    exact h
  have hr1 : (TwoParticleCOM.map_inverse 0 0 (⟨1, 0, -1, 0⟩ : Vec4)
      (⟨1, 0, 1, 0⟩ : Vec4)).1.1.1 = -(1/4) := by
    show atan2 (-1) 0 / 2 / π = -(1/4)
    rw [hat]
    field_simp
    ring
  refine ⟨⟨1, 0, -1, 0⟩, ⟨1, 0, 1, 0⟩,
    1 / (two_particle_density 4 0 0 / (4 * π)), hmap, hr1, ?_⟩
  rw [hr1, show (-(1/4) - 3/4 : ℝ) = -1 by norm_num, abs_neg, abs_one]
  norm_num

end TwoParticleLemmas

/-! ## Rambo lemmas -/

section RamboLemmas

open Real

/-- The empty particle sum is the zero vector. -/
lemma sumVec_zero (f : ℕ → Vec4) : sumVec 0 f = ⟨0, 0, 0, 0⟩ := by
  simp [sumVec]

/-- Peeling the last particle off a sum. -/
lemma sumVec_succ (n : ℕ) (f : ℕ → Vec4) :
    sumVec (n + 1) f = addV (sumVec n f) (f n) := by
  simp [sumVec, addV, Finset.sum_range_succ]

/-- `boostS` is additive in the boosted vector. -/
lemma boostS_addV (a b p : Vec4) (s : ℝ) :
    boostS (addV a b) p s = addV (boostS a p s) (boostS b p s) := by
  simp only [boostS, addV, edot3]
  apply Vec4.ext <;> dsimp <;> ring

/-- `boostS` of the zero vector is zero. -/
lemma boostS_zero (p : Vec4) (s : ℝ) :
    boostS ⟨0, 0, 0, 0⟩ p s = ⟨0, 0, 0, 0⟩ := by
  simp only [boostS, edot3]
  apply Vec4.ext <;> dsimp <;> simp

/-- `boostS` commutes with particle sums (it is linear in the boosted
vector). -/
lemma boostS_sumVec (n : ℕ) (f : ℕ → Vec4) (p : Vec4) (s : ℝ) :
    boostS (sumVec n f) p s = sumVec n (fun i => boostS (f i) p s) := by
  induction n with
  | zero => rw [sumVec_zero, sumVec_zero, boostS_zero]
  | succ n ih => rw [sumVec_succ, boostS_addV, ih, sumVec_succ]

/-- Scalar multiples factor out of particle sums. -/
lemma sumVec_smulV (n : ℕ) (c : ℝ) (f : ℕ → Vec4) :
    sumVec n (fun i => smulV c (f i)) = smulV c (sumVec n f) := by
  simp [sumVec, smulV, Finset.mul_sum]

/-- The Minkowski square scales quadratically. -/
lemma lsquare_smulV (c : ℝ) (v : Vec4) :
    lsquare (smulV c v) = c ^ 2 * lsquare v := by
  simp only [lsquare, smulV]; ring

/-- Boosting a timelike vector into its own rest frame yields
`(M, 0, 0, 0)` with `M = sqrt(lsquare p)`. -/
lemma boostS_self (p : Vec4) (hp : 0 ≤ lsquare p)
    (hM0 : Real.sqrt (lsquare p) ≠ 0)
    (hMe : Real.sqrt (lsquare p) + p.e ≠ 0) :
    boostS p p (-1) = ⟨Real.sqrt (lsquare p), 0, 0, 0⟩ := by
  have hM2 : Real.sqrt (lsquare p) ^ 2 = lsquare p := Real.sq_sqrt hp
  have hnum : p.e * p.e + (-1) * edot3 p p = lsquare p := by
    simp only [edot3, lsquare]; ring
  have he : (p.e * p.e + (-1) * edot3 p p) / Real.sqrt (lsquare p)
      = Real.sqrt (lsquare p) := by
    rw [hnum]
    exact Real.div_sqrt
  have hc : (p.e + Real.sqrt (lsquare p)) / (Real.sqrt (lsquare p) + p.e)
      = 1 := by
    rw [add_comm]
    exact div_self hMe
  show (⟨(p.e * p.e + (-1) * edot3 p p) / Real.sqrt (lsquare p),
    p.x + (-1) * ((p.e + (p.e * p.e + (-1) * edot3 p p)
      / Real.sqrt (lsquare p)) / (Real.sqrt (lsquare p) + p.e)) * p.x,
    p.y + (-1) * ((p.e + (p.e * p.e + (-1) * edot3 p p)
      / Real.sqrt (lsquare p)) / (Real.sqrt (lsquare p) + p.e)) * p.y,
    p.z + (-1) * ((p.e + (p.e * p.e + (-1) * edot3 p p)
      / Real.sqrt (lsquare p)) / (Real.sqrt (lsquare p) + p.e)) * p.z⟩
    : Vec4) = ⟨Real.sqrt (lsquare p), 0, 0, 0⟩
  rw [he, hc]
  apply Vec4.ext <;> dsimp <;> ring

/-- Each intermediate Rambo vector is exactly lightlike when the first
random of its row lies in `[0, 1]`. -/
lemma lsquare_map_fourvector_rambo (r : ℕ → Fin 4 → ℝ) (i : ℕ)
    (h0 : 0 ≤ r i 0) (h1 : r i 0 ≤ 1) :
    lsquare (map_fourvector_rambo r i) = 0 := by
  have hc : (2 * r i 0 - 1) ^ 2 ≤ 1 := by nlinarith
  have hs2 : Real.sqrt (1 - (2 * r i 0 - 1) ^ 2) ^ 2
      = 1 - (2 * r i 0 - 1) ^ 2 := Real.sq_sqrt (by linarith)
  have hcs := Real.sin_sq_add_cos_sq (2 * π * r i 1)
  show (-Real.log (r i 2 * r i 3)) ^ 2
      - (-Real.log (r i 2 * r i 3) * Real.sqrt (1 - (2 * r i 0 - 1) ^ 2)
        * Real.cos (2 * π * r i 1)) ^ 2
      - (-Real.log (r i 2 * r i 3) * Real.sqrt (1 - (2 * r i 0 - 1) ^ 2)
        * Real.sin (2 * π * r i 1)) ^ 2
      - (-Real.log (r i 2 * r i 3) * (2 * r i 0 - 1)) ^ 2 = 0
  linear_combination (-((-Real.log (r i 2 * r i 3)) ^ 2)
      * (Real.cos (2 * π * r i 1) ^ 2 + Real.sin (2 * π * r i 1) ^ 2)) * hs2
    + (-((-Real.log (r i 2 * r i 3)) ^ 2) * (1 - (2 * r i 0 - 1) ^ 2)) * hcs

/-- The intermediate Rambo energy `-log(r₂·r₃)` is nonnegative for energy
randoms with product in `[0, 1]`. -/
lemma map_fourvector_rambo_e_nonneg (r : ℕ → Fin 4 → ℝ) (i : ℕ)
    (h2 : 0 ≤ r i 2 * r i 3) (h3 : r i 2 * r i 3 ≤ 1) :
    0 ≤ (map_fourvector_rambo r i).e := by
  show 0 ≤ -Real.log (r i 2 * r i 3)
  have := Real.log_nonpos h2 h3
  linarith

/-- `Rambo.map` on a massless configuration with positive energy: no
error, the massless momenta and weight are returned. -/
lemma rambo_map_massless (n : ℕ) (xi e_cm : ℝ) (r : ℕ → Fin 4 → ℝ)
    (he : 0 < e_cm) :
    Rambo.map ⟨n, none⟩ xi r e_cm
      = .ok (Rambo.masslessP n e_cm r, Rambo.masslessWeight n e_cm) := by
  simp only [Rambo.map]
  rw [if_neg (by simp only [Rambo.e_min]; exact not_le.mpr he)]

/-- `Rambo.map` on a massive configuration above threshold: no error, the
`xi`-rescaled massive momenta and corrected weight are returned. -/
lemma rambo_map_massive (n : ℕ) (m : ℕ → ℝ) (xi e_cm : ℝ)
    (r : ℕ → Fin 4 → ℝ)
    (he : (∑ i ∈ Finset.range n, m i) < e_cm) :
    Rambo.map ⟨n, some m⟩ xi r e_cm
      = .ok (Rambo.massiveK m xi (Rambo.masslessP n e_cm r),
          Rambo.massiveWeight n (Rambo.massiveK m xi (Rambo.masslessP n e_cm r))
            (Rambo.masslessP n e_cm r) xi * Rambo.masslessWeight n e_cm) := by
  simp only [Rambo.map]
  rw [if_neg (by simp only [Rambo.e_min]; exact not_le.mpr he)]

/-- The massless Rambo momenta sum to `(e_cm, 0, 0, 0)` whenever the
intermediate sum `Q` is timelike with nonnegative energy. -/
lemma rambo_masslessP_sum (n : ℕ) (e_cm : ℝ) (r : ℕ → Fin 4 → ℝ)
    (hQ : 0 < lsquare (sumVec n (fun j => map_fourvector_rambo r j)))
    (hQe : 0 ≤ (sumVec n (fun j => map_fourvector_rambo r j)).e) :
    sumVec n (Rambo.masslessP n e_cm r) = ⟨e_cm, 0, 0, 0⟩ := by
  set Q : Vec4 := sumVec n (fun j => map_fourvector_rambo r j) with hQdef
  have hM0 : Real.sqrt (lsquare Q) ≠ 0 := ne_of_gt (Real.sqrt_pos.mpr hQ)
  have hMe : Real.sqrt (lsquare Q) + Q.e ≠ 0 :=
    ne_of_gt (add_pos_of_pos_of_nonneg (Real.sqrt_pos.mpr hQ) hQe)
  have hPdef : Rambo.masslessP n e_cm r = fun i =>
      smulV (e_cm / Real.sqrt (lsquare Q))
        (boostS (map_fourvector_rambo r i) Q (-1)) := rfl
  rw [hPdef, sumVec_smulV, ← boostS_sumVec, ← hQdef,
    boostS_self Q hQ.le hM0 hMe]
  apply Vec4.ext <;> dsimp [smulV]
  · exact div_mul_cancel₀ _ hM0
  · ring
  · ring
  · ring

/-- Each massless Rambo momentum is exactly lightlike under the same
conditions. -/
lemma rambo_masslessP_null (n : ℕ) (e_cm : ℝ) (r : ℕ → Fin 4 → ℝ) (i : ℕ)
    (h0 : 0 ≤ r i 0) (h1 : r i 0 ≤ 1)
    (hQ : 0 < lsquare (sumVec n (fun j => map_fourvector_rambo r j)))
    (hQe : 0 ≤ (sumVec n (fun j => map_fourvector_rambo r j)).e) :
    lsquare (Rambo.masslessP n e_cm r i) = 0 := by
  set Q : Vec4 := sumVec n (fun j => map_fourvector_rambo r j) with hQdef
  have hM0 : Real.sqrt (lsquare Q) ≠ 0 := ne_of_gt (Real.sqrt_pos.mpr hQ)
  have hMe : Real.sqrt (lsquare Q) + Q.e ≠ 0 :=
    ne_of_gt (add_pos_of_pos_of_nonneg (Real.sqrt_pos.mpr hQ) hQe)
  have hPdef : Rambo.masslessP n e_cm r i
      = smulV (e_cm / Real.sqrt (lsquare Q))
          (boostS (map_fourvector_rambo r i) Q (-1)) := rfl
  rw [hPdef, lsquare_smulV,
    boostS_lsquare (map_fourvector_rambo r i) Q (-1) (by norm_num)
      hQ.le hM0 hMe,
    lsquare_map_fourvector_rambo r i h0 h1, mul_zero]

/-- C2: for a massive Rambo configuration with nonnegative masses, a COM
energy above the mass sum, randoms in range, nondegenerate intermediate
sum, and `xi` solving the global mass-shell equation exactly, `map`
succeeds, every output four-vector is on-shell for its configured mass,
and the summed output has invariant mass exactly `e_cm`. -/
theorem rambo_massive_onshell_invariant_mass (n : ℕ) (m : ℕ → ℝ)
    (e_cm xi : ℝ) (r : ℕ → Fin 4 → ℝ)
    (hm : ∀ i < n, 0 ≤ m i)
    (he : (∑ i ∈ Finset.range n, m i) < e_cm)
    (hr : ∀ i < n, 0 ≤ r i 0 ∧ r i 0 ≤ 1 ∧ 0 ≤ r i 2 * r i 3
      ∧ r i 2 * r i 3 ≤ 1)
    (hQ : 0 < lsquare (sumVec n (fun j => map_fourvector_rambo r j)))
    (hxi : ∑ i ∈ Finset.range n, Real.sqrt ((m i) ^ 2
        + xi ^ 2 * (Rambo.masslessP n e_cm r i).e ^ 2) = e_cm) :
    ∃ k w, Rambo.map ⟨n, some m⟩ xi r e_cm = .ok (k, w) ∧
      (∀ i < n, lsquare (k i) = (m i) ^ 2) ∧
      massOf (sumVec n k) = e_cm := by
  have hecm : 0 < e_cm :=
    lt_of_le_of_lt (Finset.sum_nonneg fun i hi =>
      hm i (Finset.mem_range.mp hi)) he
  have hQe : 0 ≤ (sumVec n (fun j => map_fourvector_rambo r j)).e := by
    show 0 ≤ ∑ i ∈ Finset.range n, (map_fourvector_rambo r i).e
    exact Finset.sum_nonneg fun i hi =>
      map_fourvector_rambo_e_nonneg r i
        (hr i (Finset.mem_range.mp hi)).2.2.1
        (hr i (Finset.mem_range.mp hi)).2.2.2
  have hPsum := rambo_masslessP_sum n e_cm r hQ hQe
  refine ⟨_, _, rambo_map_massive n m xi e_cm r he, ?_, ?_⟩
  · intro i hi
    have hnull := rambo_masslessP_null n e_cm r i (hr i hi).1 (hr i hi).2.1
      hQ hQe
    have harg : 0 ≤ (m i) ^ 2 + xi ^ 2 * (Rambo.masslessP n e_cm r i).e ^ 2 :=
      by positivity
    show Real.sqrt ((m i) ^ 2 + xi ^ 2 * (Rambo.masslessP n e_cm r i).e ^ 2)
        ^ 2 - (xi * (Rambo.masslessP n e_cm r i).x) ^ 2
      - (xi * (Rambo.masslessP n e_cm r i).y) ^ 2
      - (xi * (Rambo.masslessP n e_cm r i).z) ^ 2 = (m i) ^ 2
    rw [Real.sq_sqrt harg]
    have hl : lsquare (Rambo.masslessP n e_cm r i)
        = (Rambo.masslessP n e_cm r i).e ^ 2
          - (Rambo.masslessP n e_cm r i).x ^ 2
          - (Rambo.masslessP n e_cm r i).y ^ 2
          - (Rambo.masslessP n e_cm r i).z ^ 2 := rfl
    rw [hnull] at hl
    linear_combination (-(xi ^ 2)) * hl
  · have hsum : sumVec n (Rambo.massiveK m xi (Rambo.masslessP n e_cm r))
        = ⟨e_cm, 0, 0, 0⟩ := by
      apply Vec4.ext
      · exact hxi
      · show (∑ i ∈ Finset.range n,
            xi * (Rambo.masslessP n e_cm r i).x) = 0
        rw [← Finset.mul_sum]
        have hx : (∑ i ∈ Finset.range n, (Rambo.masslessP n e_cm r i).x)
            = 0 := congrArg Vec4.x hPsum
        rw [hx, mul_zero]
      · show (∑ i ∈ Finset.range n,
            xi * (Rambo.masslessP n e_cm r i).y) = 0
        rw [← Finset.mul_sum]
        have hy : (∑ i ∈ Finset.range n, (Rambo.masslessP n e_cm r i).y)
            = 0 := congrArg Vec4.y hPsum
        rw [hy, mul_zero]
      · show (∑ i ∈ Finset.range n,
            xi * (Rambo.masslessP n e_cm r i).z) = 0
        rw [← Finset.mul_sum]
        have hz : (∑ i ∈ Finset.range n, (Rambo.masslessP n e_cm r i).z)
            = 0 := congrArg Vec4.z hPsum
        rw [hz, mul_zero]
    rw [hsum]
    show Real.sqrt |e_cm ^ 2 - 0 ^ 2 - 0 ^ 2 - 0 ^ 2| = e_cm
    rw [show e_cm ^ 2 - 0 ^ 2 - 0 ^ 2 - 0 ^ 2 = e_cm ^ 2 by ring,
      abs_of_nonneg (sq_nonneg e_cm), Real.sqrt_sq hecm.le]

/-- C3 (amended): for the massless three-particle Rambo at
`e_cm = 1000` and any random block with in-range entries whose
intermediate sum is timelike, the summed output has invariant mass
exactly `1000`, and the returned weight equals the closed-form constant
`(π/2)²·1000²/(Γ(3)Γ(2)) = π²·125000` — independent of the randoms. -/
theorem rambo_massless_scenario2 (r : ℕ → Fin 4 → ℝ)
    (hr : ∀ i < 3, 0 ≤ r i 0 ∧ r i 0 ≤ 1 ∧ 0 ≤ r i 2 * r i 3
      ∧ r i 2 * r i 3 ≤ 1)
    (hQ : 0 < lsquare (sumVec 3 (fun j => map_fourvector_rambo r j))) :
    ∃ p w, Rambo.map ⟨3, none⟩ 0 r 1000 = .ok (p, w) ∧
      massOf (sumVec 3 p) = 1000 ∧
      w = (π / 2) ^ (3 - 1) * (1000 : ℝ) ^ (2 * (3 : ℤ) - 4)
        / (Real.Gamma 3 * Real.Gamma 2) ∧
      w = π ^ 2 * 125000 := by
  have hQe : 0 ≤ (sumVec 3 (fun j => map_fourvector_rambo r j)).e := by
    show 0 ≤ ∑ i ∈ Finset.range 3, (map_fourvector_rambo r i).e
    exact Finset.sum_nonneg fun i hi =>
      map_fourvector_rambo_e_nonneg r i
        (hr i (Finset.mem_range.mp hi)).2.2.1
        (hr i (Finset.mem_range.mp hi)).2.2.2
  have hg2 : Real.Gamma 2 = 1 := by
    rw [show (2 : ℝ) = 1 + 1 by norm_num, Real.Gamma_add_one one_ne_zero,
      Real.Gamma_one, mul_one]
  have hg3 : Real.Gamma 3 = 2 := by
    rw [show (3 : ℝ) = 2 + 1 by norm_num, Real.Gamma_add_one two_ne_zero,
      hg2, mul_one]
  refine ⟨_, _, rambo_map_massless 3 0 1000 r (by norm_num), ?_, ?_, ?_⟩
  · rw [rambo_masslessP_sum 3 1000 r hQ hQe]
    show Real.sqrt |(1000 : ℝ) ^ 2 - 0 ^ 2 - 0 ^ 2 - 0 ^ 2| = 1000
    rw [show (1000 : ℝ) ^ 2 - 0 ^ 2 - 0 ^ 2 - 0 ^ 2 = 1000 ^ 2 by ring,
      abs_of_nonneg (sq_nonneg 1000),
      Real.sqrt_sq (by norm_num : (0:ℝ) ≤ 1000)]
  · show Rambo.masslessWeight 3 1000 = _
    simp only [Rambo.masslessWeight]
    norm_num
  · show Rambo.masslessWeight 3 1000 = _
    simp only [Rambo.masslessWeight]
    rw [show ((3 : ℕ) : ℝ) = 3 by norm_num, hg3,
      show (3 : ℝ) - 1 = 2 by norm_num, hg2,
      show (2 * ((3 : ℕ) : ℤ) - 4) = 2 by norm_num, zpow_two]
    ring

/-- C6 (the code bug): the forward density query of both global samplers
raises `TypeError` on every input — `density` calls `self.map(self,
inputs)`, passing the mapping object as `inputs` — while `map` itself
succeeds on the same input and returns the weight the claim expects. -/
theorem rambo_density_never_returns_weight (n : ℕ) (xi e_cm : ℝ)
    (r : ℕ → Fin 4 → ℝ) (rd : ℕ → ℝ) (he : 0 < e_cm) :
    Rambo.density ⟨n, none⟩ r e_cm false
        = .error .typeErrorNotSubscriptable ∧
    RamboOnDiet.density ⟨n, none⟩ rd e_cm false
        = .error .typeErrorNotSubscriptable ∧
    Rambo.map ⟨n, none⟩ xi r e_cm
        = .ok (Rambo.masslessP n e_cm r, Rambo.masslessWeight n e_cm) :=
  ⟨rfl, rfl, rambo_map_massless n xi e_cm r he⟩

/-- C6 witness: the density bug exhibited at the concrete massless
three-particle configuration with `e_cm = 1000`. -/
theorem rambo_density_never_returns_weight_witness :
    (0 : ℝ) < 1000 ∧
    (Rambo.density ⟨3, none⟩ rThree 1000 false
        = .error .typeErrorNotSubscriptable ∧
     RamboOnDiet.density ⟨3, none⟩ (fun _ => 1/2) 1000 false
        = .error .typeErrorNotSubscriptable ∧
     Rambo.map ⟨3, none⟩ 0 rThree 1000
        = .ok (Rambo.masslessP 3 1000 rThree, Rambo.masslessWeight 3 1000)) :=
  ⟨by norm_num,
   rambo_density_never_returns_weight 3 0 1000 rThree (fun _ => 1/2)
     (by norm_num)⟩

/-- Row 0 of `rThree` (and of `rTwo`): the `+z` direction with energy
random product `1/4`. -/
lemma map_fourvector_rThree_zero : map_fourvector_rambo rThree 0
    = ⟨-Real.log (1/4), 0, 0, -Real.log (1/4)⟩ := by
  simp only [map_fourvector_rambo, rThree]
  norm_num

/-- Row 1 of `rThree`: the `-z` direction. -/
lemma map_fourvector_rThree_one : map_fourvector_rambo rThree 1
    = ⟨-Real.log (1/4), 0, 0, Real.log (1/4)⟩ := by
  simp only [map_fourvector_rambo, rThree]
  norm_num

/-- Row 2 of `rThree`: the `+x` direction. -/
lemma map_fourvector_rThree_two : map_fourvector_rambo rThree 2
    = ⟨-Real.log (1/4), -Real.log (1/4), 0, 0⟩ := by
  simp only [map_fourvector_rambo, rThree]
  norm_num

/-- The intermediate sum of `rThree` is timelike. -/
lemma rThree_sum : sumVec 3 (fun j => map_fourvector_rambo rThree j)
    = ⟨-(3 * Real.log (1/4)), -Real.log (1/4), 0, 0⟩ := by
  apply Vec4.ext <;>
    simp [sumVec, Finset.sum_range_succ, map_fourvector_rThree_zero,
      map_fourvector_rThree_one, map_fourvector_rThree_two] <;> ring

/-- C3 witness: the amended scenario-2 property evaluated on the concrete
three-direction random block `rThree`. -/
theorem rambo_massless_scenario2_witness :
    (∀ i < 3, 0 ≤ rThree i 0 ∧ rThree i 0 ≤ 1 ∧ 0 ≤ rThree i 2 * rThree i 3
      ∧ rThree i 2 * rThree i 3 ≤ 1) ∧
    0 < lsquare (sumVec 3 (fun j => map_fourvector_rambo rThree j)) ∧
    (∃ p w, Rambo.map ⟨3, none⟩ 0 rThree 1000 = .ok (p, w) ∧
      massOf (sumVec 3 p) = 1000 ∧
      w = (π / 2) ^ (3 - 1) * (1000 : ℝ) ^ (2 * (3 : ℤ) - 4)
        / (Real.Gamma 3 * Real.Gamma 2) ∧
      w = π ^ 2 * 125000) := by
  have hL : Real.log (1/4 : ℝ) < 0 :=
    Real.log_neg (by norm_num) (by norm_num)
  have h1 : ∀ i < 3, 0 ≤ rThree i 0 ∧ rThree i 0 ≤ 1
      ∧ 0 ≤ rThree i 2 * rThree i 3 ∧ rThree i 2 * rThree i 3 ≤ 1 := by
    intro i hi
    interval_cases i <;> norm_num [rThree]
  have h2 : 0 < lsquare (sumVec 3 (fun j => map_fourvector_rambo rThree j))
      := by
    rw [rThree_sum]
    show 0 < (-(3 * Real.log (1/4))) ^ 2 - (-Real.log (1/4)) ^ 2
      - (0:ℝ) ^ 2 - (0:ℝ) ^ 2
    nlinarith [mul_pos (neg_pos.mpr hL) (neg_pos.mpr hL)]
  exact ⟨h1, h2, rambo_massless_scenario2 rThree h1 h2⟩

/-- All rows of the degenerate block point in the same `-x` direction. -/
lemma map_fourvector_rDeg (i : ℕ) : map_fourvector_rambo rDeg i
    = ⟨-Real.log (1/4), Real.log (1/4), 0, 0⟩ := by
  simp only [map_fourvector_rambo, rDeg]
  rw [show 2 * π * (1/2 : ℝ) = π by ring]
  norm_num [Real.cos_pi, Real.sin_pi]

/-- The degenerate intermediate sum is exactly lightlike. -/
lemma rDeg_sum : sumVec 3 (fun j => map_fourvector_rambo rDeg j)
    = ⟨-(3 * Real.log (1/4)), 3 * Real.log (1/4), 0, 0⟩ := by
  apply Vec4.ext <;>
    simp [sumVec, Finset.sum_range_succ, map_fourvector_rDeg] <;> ring

/-- On a lightlike sum, the source's boost formula (division by
`rsq = 0`, with real-division-by-zero as absorbing junk) collapses the
degenerate vectors to zero. -/
lemma boostS_rDeg :
    boostS ⟨-Real.log (1/4), Real.log (1/4), 0, 0⟩
      ⟨-(3 * Real.log (1/4)), 3 * Real.log (1/4), 0, 0⟩ (-1)
      = ⟨0, 0, 0, 0⟩ := by
  have hL : Real.log (1/4 : ℝ) < 0 :=
    Real.log_neg (by norm_num) (by norm_num)
  have hls : lsquare (⟨-(3 * Real.log (1/4)), 3 * Real.log (1/4), 0, 0⟩
      : Vec4) = 0 := by
    simp only [lsquare]; ring
  have hc13 : (-Real.log (1/4) + 0) / ((0:ℝ) + -(3 * Real.log (1/4)))
      = 1/3 := by
    rw [add_zero, zero_add, div_eq_iff (by linarith : -(3 * Real.log (1/4 : ℝ)) ≠ 0)]
    ring
  simp only [boostS, edot3]
  rw [hls, Real.sqrt_zero]
  apply Vec4.ext <;> dsimp
  · rw [div_zero]
  · rw [div_zero, hc13]; ring
  · rw [div_zero, hc13]; ring
  · rw [div_zero, hc13]; ring

/-- All massless momenta of the degenerate run collapse to the zero
vector. -/
lemma rDeg_masslessP (i : ℕ) :
    Rambo.masslessP 3 1000 rDeg i = ⟨0, 0, 0, 0⟩ := by
  have hPdef : Rambo.masslessP 3 1000 rDeg i
      = smulV (1000 / Real.sqrt (lsquare
          (sumVec 3 (fun j => map_fourvector_rambo rDeg j))))
        (boostS (map_fourvector_rambo rDeg i)
          (sumVec 3 (fun j => map_fourvector_rambo rDeg j)) (-1)) := rfl
  rw [hPdef, rDeg_sum, map_fourvector_rDeg i, boostS_rDeg]
  apply Vec4.ext <;> simp [smulV]

/-- C3 counterexample: on the in-range random block with every entry
`1/2` all three particles are drawn in the same direction, the
intermediate sum is lightlike, the global rescale divides by zero, and
the summed output has invariant mass `0`, not `1000` — far beyond the
`1e-6` tolerance.  (In floating point the same input produces `inf/nan`
momenta.) -/
theorem rambo_massless_scenario2_counterexample :
    (∀ i j, rDeg i j ∈ Set.Ico (0:ℝ) 1) ∧
    ∃ p w, Rambo.map ⟨3, none⟩ 0 rDeg 1000 = .ok (p, w) ∧
      massOf (sumVec 3 p) = 0 ∧
      (1/1000000 : ℝ) < |massOf (sumVec 3 p) - 1000| := by
  have hsum : sumVec 3 (Rambo.masslessP 3 1000 rDeg) = ⟨0, 0, 0, 0⟩ := by
    apply Vec4.ext <;> simp [sumVec, rDeg_masslessP]
  have hm0 : massOf (sumVec 3 (Rambo.masslessP 3 1000 rDeg)) = 0 := by
    rw [hsum]
    show Real.sqrt |(0:ℝ) ^ 2 - 0 ^ 2 - 0 ^ 2 - 0 ^ 2| = 0
    norm_num
  refine ⟨fun i j => by norm_num [rDeg, Set.mem_Ico], _, _,
    rambo_map_massless 3 0 1000 rDeg (by norm_num), hm0, ?_⟩
  rw [hm0]
  norm_num

/-- Row 1 of `rTwo`: the `-z` direction. -/
lemma map_fourvector_rTwo_one : map_fourvector_rambo rTwo 1
    = ⟨-Real.log (1/4), 0, 0, Real.log (1/4)⟩ := by
  simp only [map_fourvector_rambo, rTwo]
  norm_num

/-- Row 0 of `rTwo`: the `+z` direction. -/
lemma map_fourvector_rTwo_zero : map_fourvector_rambo rTwo 0
    = ⟨-Real.log (1/4), 0, 0, -Real.log (1/4)⟩ := by
  simp only [map_fourvector_rambo, rTwo]
  norm_num

/-- The two-row intermediate sum is at rest with energy
`-2 log(1/4)`. -/
lemma rTwo_sum : sumVec 2 (fun j => map_fourvector_rambo rTwo j)
    = ⟨-(2 * Real.log (1/4)), 0, 0, 0⟩ := by
  apply Vec4.ext <;>
    simp [sumVec, Finset.sum_range_succ, map_fourvector_rTwo_zero,
      map_fourvector_rTwo_one] <;> ring

/-- The rest mass of the two-row intermediate sum. -/
lemma rTwo_sqrt : Real.sqrt (lsquare (⟨-(2 * Real.log (1/4)), 0, 0, 0⟩
    : Vec4)) = -(2 * Real.log (1/4)) := by
  have hL : Real.log (1/4 : ℝ) < 0 :=
    Real.log_neg (by norm_num) (by norm_num)
  rw [show lsquare (⟨-(2 * Real.log (1/4)), 0, 0, 0⟩ : Vec4)
      = (-(2 * Real.log (1/4))) ^ 2 from by simp [lsquare],
    Real.sqrt_sq (by linarith)]

/-- Boosting either `rTwo` row into the rest frame of the (already at
rest) intermediate sum leaves it unchanged. -/
lemma boostS_rTwo (z : ℝ) :
    boostS ⟨-Real.log (1/4), 0, 0, z⟩
      ⟨-(2 * Real.log (1/4)), 0, 0, 0⟩ (-1)
      = ⟨-Real.log (1/4), 0, 0, z⟩ := by
  have hL : Real.log (1/4 : ℝ) < 0 :=
    Real.log_neg (by norm_num) (by norm_num)
  have hne : -(2 * Real.log (1/4 : ℝ)) ≠ 0 := by linarith
  simp only [boostS, edot3]
  rw [rTwo_sqrt]
  apply Vec4.ext <;> dsimp
  · rw [div_eq_iff hne]; ring
  · ring
  · ring
  · ring

/-- The first massless momentum of the concrete two-particle massive run
is `(5, 0, 0, 5)`. -/
lemma rTwo_masslessP_zero : Rambo.masslessP 2 10 rTwo 0 = ⟨5, 0, 0, 5⟩ := by
  have hL : Real.log (1/4 : ℝ) < 0 :=
    Real.log_neg (by norm_num) (by norm_num)
  have hPdef : Rambo.masslessP 2 10 rTwo 0
      = smulV (10 / Real.sqrt (lsquare
          (sumVec 2 (fun j => map_fourvector_rambo rTwo j))))
        (boostS (map_fourvector_rambo rTwo 0)
          (sumVec 2 (fun j => map_fourvector_rambo rTwo j)) (-1)) := rfl
  rw [hPdef, rTwo_sum, map_fourvector_rTwo_zero, boostS_rTwo, rTwo_sqrt]
  apply Vec4.ext <;> dsimp [smulV]
  · rw [div_mul_eq_mul_div, div_eq_iff (by linarith :
      -(2 * Real.log (1/4 : ℝ)) ≠ 0)]
    ring
  · ring
  · ring
  · rw [div_mul_eq_mul_div, div_eq_iff (by linarith :
      -(2 * Real.log (1/4 : ℝ)) ≠ 0)]
    ring

/-- The second massless momentum of the concrete two-particle massive run
is `(5, 0, 0, -5)`. -/
lemma rTwo_masslessP_one : Rambo.masslessP 2 10 rTwo 1 = ⟨5, 0, 0, -5⟩ := by
  have hL : Real.log (1/4 : ℝ) < 0 :=
    Real.log_neg (by norm_num) (by norm_num)
  have hPdef : Rambo.masslessP 2 10 rTwo 1
      = smulV (10 / Real.sqrt (lsquare
          (sumVec 2 (fun j => map_fourvector_rambo rTwo j))))
        (boostS (map_fourvector_rambo rTwo 1)
          (sumVec 2 (fun j => map_fourvector_rambo rTwo j)) (-1)) := rfl
  rw [hPdef, rTwo_sum, map_fourvector_rTwo_one, boostS_rTwo, rTwo_sqrt]
  apply Vec4.ext <;> dsimp [smulV]
  · rw [div_mul_eq_mul_div, div_eq_iff (by linarith :
      -(2 * Real.log (1/4 : ℝ)) ≠ 0)]
    ring
  · ring
  · ring
  · rw [div_mul_eq_mul_div, div_eq_iff (by linarith :
      -(2 * Real.log (1/4 : ℝ)) ≠ 0)]
    ring

/-- C2 witness: the on-shell and invariant-mass conclusions at the
concrete two-particle configuration with masses `3`, `e_cm = 10`,
back-to-back rows `rTwo`, and the exact mass-shell solution
`xi = 4/5`. -/
theorem rambo_massive_onshell_invariant_mass_witness :
    ((∀ i < 2, 0 ≤ (fun _ : ℕ => (3:ℝ)) i) ∧
     (∑ i ∈ Finset.range 2, (fun _ : ℕ => (3:ℝ)) i) < 10 ∧
     (∀ i < 2, 0 ≤ rTwo i 0 ∧ rTwo i 0 ≤ 1 ∧ 0 ≤ rTwo i 2 * rTwo i 3
       ∧ rTwo i 2 * rTwo i 3 ≤ 1) ∧
     0 < lsquare (sumVec 2 (fun j => map_fourvector_rambo rTwo j)) ∧
     (∑ i ∈ Finset.range 2, Real.sqrt (((fun _ : ℕ => (3:ℝ)) i) ^ 2
        + (4/5) ^ 2 * (Rambo.masslessP 2 10 rTwo i).e ^ 2)) = 10) ∧
    (∃ k w, Rambo.map ⟨2, some (fun _ : ℕ => (3:ℝ))⟩ (4/5) rTwo 10
        = .ok (k, w) ∧
      (∀ i < 2, lsquare (k i) = ((fun _ : ℕ => (3:ℝ)) i) ^ 2) ∧
      massOf (sumVec 2 k) = 10) := by
  have hL : Real.log (1/4 : ℝ) < 0 :=
    Real.log_neg (by norm_num) (by norm_num)
  have hm : ∀ i < 2, 0 ≤ (fun _ : ℕ => (3:ℝ)) i := fun i _ => by norm_num
  have he : (∑ i ∈ Finset.range 2, (fun _ : ℕ => (3:ℝ)) i) < 10 := by
    simp [Finset.sum_range_succ]
    norm_num
  have hr : ∀ i < 2, 0 ≤ rTwo i 0 ∧ rTwo i 0 ≤ 1
      ∧ 0 ≤ rTwo i 2 * rTwo i 3 ∧ rTwo i 2 * rTwo i 3 ≤ 1 := by
    intro i hi
    interval_cases i <;> norm_num [rTwo]
  have hQ : 0 < lsquare (sumVec 2 (fun j => map_fourvector_rambo rTwo j))
      := by
    rw [rTwo_sum]
    show 0 < (-(2 * Real.log (1/4))) ^ 2 - (0:ℝ) ^ 2 - (0:ℝ) ^ 2
      - (0:ℝ) ^ 2
    nlinarith [mul_pos (neg_pos.mpr hL) (neg_pos.mpr hL)]
  have hxi : (∑ i ∈ Finset.range 2, Real.sqrt (((fun _ : ℕ => (3:ℝ)) i) ^ 2
      + (4/5) ^ 2 * (Rambo.masslessP 2 10 rTwo i).e ^ 2)) = 10 := by
    rw [Finset.sum_range_succ, Finset.sum_range_one,
      rTwo_masslessP_zero, rTwo_masslessP_one]
    show Real.sqrt ((3:ℝ) ^ 2 + (4/5) ^ 2 * (5:ℝ) ^ 2)
      + Real.sqrt ((3:ℝ) ^ 2 + (4/5) ^ 2 * (5:ℝ) ^ 2) = 10
    rw [show (3:ℝ) ^ 2 + (4/5) ^ 2 * (5:ℝ) ^ 2 = 5 ^ 2 by norm_num,
      Real.sqrt_sq (by norm_num : (0:ℝ) ≤ 5)]
    norm_num
  exact ⟨⟨hm, he, hr, hQ, hxi⟩,
    rambo_massive_onshell_invariant_mass 2 (fun _ => 3) 10 (4/5) rTwo
      hm he hr hQ hxi⟩

end RamboLemmas

end MadSpace
